import Mathlib

/-!
# dbtester: report generation, Zookeeper agent start-up and directory inspection

A shallow embedding of

* `save_upload.go` : `saveDataLatencyDistributionSummary`,
  `saveDataLatencyDistributionAll`, `saveDataLatencyThroughputTimeseries` and the retry
  loop of `UploadToGoogle`;
* `agent/agent_zookeeper.go` : `startZookeeper`;
* `pkg/fileinspect/fileinspect.go` : `Walk` and `Size`.

Conventions.

* `int64` values are `Int`s kept in range by `wrap64` wherever the source does arithmetic
  on them.
* Non-negative `float64` values are counted in units of `2^-1074` (the spacing of the
  smallest subnormals), so that every finite non-negative `float64` is a natural number
  of units; `none` stands for `+Inf`.  Arithmetic rounds to nearest, ties to even, as
  IEEE 754 binary64 does.
* Go strings are `List Char`/`String`.
-/

set_option exponentiation.threshold 4000
set_option maxRecDepth 200000

namespace Dbtester

/-! ## Machine integers -/

/-- Two's complement wrap-around of an integer into the `int64` range. -/
def wrap64 (z : Int) : Int := (z + 2 ^ 63) % 2 ^ 64 - 2 ^ 63

/-- Go's `math.MaxInt64`. -/
def maxInt64 : Int := 2 ^ 63 - 1

/-- Go's `math.MinInt64`. -/
def minInt64 : Int := -(2 ^ 63)

/-! ## Non-negative binary64 arithmetic -/

/-- Number of units in `1.0`: a unit is `2^-1074`. -/
def f64One : Nat := 2 ^ 1074

/-- Helper for `bitLen`: the fuel is never exhausted when it starts at the number itself. -/
def bitLenAux : Nat → Nat → Nat
  | 0, _ => 0
  | fuel + 1, n => if n = 0 then 0 else bitLenAux fuel (n / 2) + 1

/-- Number of binary digits of `n` (`0` for `0`). -/
def bitLen (n : Nat) : Nat := bitLenAux n n

/-- Binary exponent (in units) of the binary64 grid around a value whose integer part, in
units, is `f`: values below `2^53` units are spaced one unit apart (subnormals and the
first normal binade), each further binade doubles the spacing. -/
def f64Expo (f : Nat) : Nat := bitLen f - 53

/-- A number of units is a non-negative finite binary64 value: it has at most 53
significant bits and is below `2^1024`. -/
def isF64 (n : Nat) : Prop := n % 2 ^ f64Expo n = 0 ∧ n < 2 ^ 2098

instance (n : Nat) : Decidable (isF64 n) := by
  unfold isF64; exact inferInstance

/-- Round the rational `p / q` (in units, `0 < q`) to the binary64 grid: nearest, ties to
even, before the overflow check. -/
def f64RoundNat (p q : Nat) : Nat :=
  let k := f64Expo (p / q)
  let den := q * 2 ^ k
  let quo := p / den
  let rem := p % den
  let r := if 2 * rem < den then quo
    else if den < 2 * rem then quo + 1
    else if quo % 2 = 0 then quo else quo + 1
  r * 2 ^ k

/-- Round the rational `p / q` to binary64; `none` is overflow to `+Inf`. -/
def f64Round (p q : Nat) : Option Nat :=
  if f64RoundNat p q < 2 ^ 2098 then some (f64RoundNat p q) else none

/-- Product `x * c` of a non-negative binary64 with a small integer constant `c` that is
itself a binary64 (the source uses `1000` and `10`). -/
def f64MulNat (x : Option Nat) (c : Nat) : Option Nat :=
  match x with
  | none => none
  | some n => f64Round (n * c) 1

/-- Quotient `x / c` of a non-negative binary64 by a small positive integer constant. -/
def f64DivNat (x : Option Nat) (c : Nat) : Option Nat :=
  match x with
  | none => none
  | some n => f64Round n c

/-- Go's `math.Trunc` on non-negative values: drop the fractional part. -/
def f64Trunc (x : Option Nat) : Option Nat :=
  match x with
  | none => none
  | some n => some (n / f64One * f64One)

/-- Go's conversion `int64(x)` of an integral non-negative binary64.  Out of range (and
`+Inf`) the Go specification leaves the result to the implementation; amd64 yields
`math.MinInt64`, which is what is modelled. -/
def f64ToInt64 (x : Option Nat) : Int :=
  match x with
  | none => minInt64
  | some n => if n / f64One < 2 ^ 63 then ((n / f64One : Nat) : Int) else minInt64

/-- A non-negative finite `float64`: the value is `mant * 2^(expo - 1074)`. -/
structure F64 where
  mant : Nat
  expo : Nat
  mant_lt : mant < 2 ^ 53
  expo_le : expo ≤ 2045

/-- The value of a `float64` in units of `2^-1074`. -/
def F64.units (x : F64) : Nat := x.mant * 2 ^ x.expo

/-! ## `saveDataLatencyDistributionAll` -/

/-- The statement `ms := lt * 1000`: the latency in milliseconds as the source computes
it. -/
def toMs (lt : F64) : Option Nat := f64MulNat (some lt.units) 1000

/-- The statement `v := int64(math.Trunc(ms/10) * 10)`. -/
def bucketOf (lt : F64) : Int :=
  f64ToInt64 (f64MulNat (f64Trunc (f64DivNat (toMs lt) 10)) 10)

/-- State of the first loop of `saveDataLatencyDistributionAll`: `min`, `max` and the
map `rm` from bucket floor to count. -/
structure HistState where
  min : Int
  max : Int
  rm : Int → Option Int

/-- State before the first sample: `min := math.MaxInt64`, `max := -100000`, empty `rm`. -/
def HistState.init : HistState := ⟨maxInt64, -100000, fun _ => none⟩

/-- The update of `rm[v]`: `1` for a new key, the `int64` increment otherwise. -/
def bump (c : Option Int) : Option Int :=
  match c with
  | none => some 1
  | some c => some (wrap64 (c + 1))

/-- One iteration of `for _, lt := range st.Lats`. -/
def histStep (s : HistState) (lt : F64) : HistState :=
  let v := bucketOf lt
  let rm : Int → Option Int := fun k => if k = v then bump (s.rm v) else s.rm k
  let min := if s.min > v then v else s.min
  let max := if s.max < v then v else s.max
  ⟨min, max, rm⟩

/-- The whole first loop. -/
def histFold (lats : List F64) : HistState := lats.foldl histStep HistState.init

/-- The lookup `v, ok := rm[cur]` followed by the push onto column `COUNT`: the stored
count when the key is present, `"0"` otherwise. -/
def countAt (rm : Int → Option Int) (cur : Int) : Int :=
  match rm cur with
  | some v => v
  | none => 0

/-- The emission loop `for { ... }`: each iteration pushes one `(LATENCY-MS, COUNT)` row
(the numbers the source prints with `%d`), adds `10` to `cur` with `int64` wrap-around
and leaves when `cur - 10 == max`.  `none` means the fuel ran out before the `break`. -/
def emitLoop (rm : Int → Option Int) (max : Int) : Nat → Int → Option (List (Int × Int))
  | 0, _ => none
  | fuel + 1, cur =>
    let row : Int × Int := (cur, countAt rm cur)
    let cur1 := wrap64 (cur + 10)
    if wrap64 (cur1 - 10) = max then some [row]
    else (emitLoop rm max fuel cur1).map (fun rest => row :: rest)

/-- The rows of the data frame that `saveDataLatencyDistributionAll` builds (columns
`LATENCY-MS` and `COUNT`), when the emission loop leaves within `fuel` iterations. -/
def saveDataLatencyDistributionAll (fuel : Nat) (lats : List F64) :
    Option (List (Int × Int)) :=
  let s := histFold lats
  emitLoop s.rm s.max fuel s.min

/-- The bucket floors of all samples, in input order. -/
def floors (lats : List F64) : List Int := lats.map bucketOf

/-- Smallest truncated bucket floor of a sample list (`0` for the empty list). -/
def minFloor (lats : List F64) : Int :=
  match floors lats with
  | [] => 0
  | v :: vs => vs.foldl min v

/-- Largest truncated bucket floor of a sample list (`0` for the empty list). -/
def maxFloor (lats : List F64) : Int :=
  match floors lats with
  | [] => 0
  | v :: vs => vs.foldl max v

/-- A sample lies in the bucket with floor `b`: its latency in milliseconds `m`, as the
source computes it, is finite and satisfies `b ≤ m < b + 10`. -/
def inBucket (b : Int) (lt : F64) : Bool :=
  match toMs lt with
  | none => false
  | some m => decide (b * (f64One : Int) ≤ (m : Int) ∧ (m : Int) < (b + 10) * (f64One : Int))

/-- Number of samples in the bucket with floor `b`. -/
def bucketCount (b : Int) (lats : List F64) : Int :=
  ((lats.filter (inBucket b)).length : Int)

/-- The `float64` nearest to 0.005 (5 ms): `0x1.47ae147ae147bp-8`. -/
def lat5ms : F64 := ⟨5764607523034235, 1014, by decide, by decide⟩

/-- The `float64` nearest to 0.012 (12 ms): `0x1.89374bc6a7efap-7`. -/
def lat12ms : F64 := ⟨6917529027641082, 1015, by decide, by decide⟩

/-- The `float64` nearest to 0.022 (22 ms): `0x1.6872b020c49bap-6`. -/
def lat22ms : F64 := ⟨6341068275337658, 1016, by decide, by decide⟩

/-- The `float64` `2^46` (seconds): `0x1p+46`. -/
def lat2p46 : F64 := ⟨4503599627370496, 1068, by decide, by decide⟩

/-- The `float64` right above `2^46`: `0x1.0000000000001p+46`. -/
def lat2p46next : F64 := ⟨4503599627370497, 1068, by decide, by decide⟩

/-- The `float64` fourteen steps above `2^46`: `0x1.000000000000ep+46`. -/
def lat2p46plus14 : F64 := ⟨4503599627370510, 1068, by decide, by decide⟩

/-! ## Data frames

`github.com/gyuho/dataframe` is not part of the repository.  A frame is the ordered list of
its columns; `AddColumn` appends a column and refuses a header that is already present,
which is the only way the `plog.Fatal` branches after `fr.AddColumn` can be reached. -/

/-- A value pushed onto a column, kept as the expression the source formats:
`φ` is the type of the `float64` fields of `report.Stats`. -/
inductive Cell (φ : Type) where
  /-- An integer printed with `%d` (or handed to `NewStringValue` as is). -/
  | int (i : Int)
  /-- A string literal. -/
  | text (s : String)
  /-- The result of `fmt.Sprintf("%4.4f", x)`. -/
  | f4 (x : φ)
  /-- The result of `fmt.Sprintf("%4.4f", 1000*x)`. -/
  | f4Milli (x : φ)
  /-- The result of `fmt.Sprintf("%f", toMillisecond(d))` for a `time.Duration` `d`. -/
  | fMilli (d : Int)
  deriving DecidableEq

/-- A column: its header and the values pushed onto it, first to last. -/
structure Column (φ : Type) where
  header : String
  cells : List (Cell φ)
  deriving DecidableEq

/-- The method `AddColumn` of a frame: the error is the header that already exists. -/
def addColumn {φ : Type} (fr : List (Column φ)) (c : Column φ) :
    Except String (List (Column φ)) :=
  if fr.any (fun d => d.header == c.header) then Except.error c.header
  else Except.ok (fr ++ [c])

/-! ## `saveDataLatencyDistributionSummary` -/

/-- The fields of `report.Stats` that the summary reads, as the function uses them (the
declaration of the type is not among the sources).  `ErrorDist` is the Go map from error
kind to count as the list of its entries in the order `range` delivers them (keys are
distinct; Go leaves the order open). `Total` stands for `st.Total.Seconds()`. -/
structure Stats (φ : Type) where
  Total : φ
  RPS : φ
  Slowest : φ
  Fastest : φ
  Average : φ
  Stddev : φ
  ErrorDist : List (String × Int)

/-- Add one column per entry of `ErrorDist`: the body of
`for errName, errN := range st.ErrorDist`.  `quote s` is what `%q` prints for `s`. -/
def addErrorColumns {φ : Type} (quote : String → String) :
    List (String × Int) → List (Column φ) → Except String (List (Column φ))
  | [], fr => Except.ok fr
  | (errName, errN) :: rest, fr =>
    match addColumn fr ⟨"ERROR: " ++ quote errName, [Cell.int errN]⟩ with
    | Except.error e => Except.error e
    | Except.ok fr1 => addErrorColumns quote rest fr1

/-- The frame `saveDataLatencyDistributionSummary` hands to `CSVHorizontal`;
`Except.error` is a `plog.Fatal`. -/
def saveDataLatencyDistributionSummary {φ : Type} (quote : String → String) (st : Stats φ) :
    Except String (List (Column φ)) :=
  match addColumn [] ⟨"TOTAL-SECONDS", [Cell.f4 st.Total]⟩ with
  | Except.error e => Except.error e
  | Except.ok fr1 =>
  match addColumn fr1 ⟨"REQUESTS-PER-SECOND", [Cell.f4 st.RPS]⟩ with
  | Except.error e => Except.error e
  | Except.ok fr2 =>
  match addColumn fr2 ⟨"SLOWEST-LATENCY-MS", [Cell.f4Milli st.Slowest]⟩ with
  | Except.error e => Except.error e
  | Except.ok fr3 =>
  match addColumn fr3 ⟨"FASTEST-LATENCY-MS", [Cell.f4Milli st.Fastest]⟩ with
  | Except.error e => Except.error e
  | Except.ok fr4 =>
  match addColumn fr4 ⟨"AVERAGE-LATENCY-MS", [Cell.f4Milli st.Average]⟩ with
  | Except.error e => Except.error e
  | Except.ok fr5 =>
  match addColumn fr5 ⟨"STDDEV-LATENCY-MS", [Cell.f4Milli st.Stddev]⟩ with
  | Except.error e => Except.error e
  | Except.ok fr6 =>
  if st.ErrorDist.length > 0 then addErrorColumns quote st.ErrorDist fr6
  else addColumn fr6 ⟨"ERROR", [Cell.text "0"]⟩

/-- What `%q` prints for a string of printable characters other than the double quote and
the backslash: the string between double quotes. -/
def quotePlain (s : String) : String := "\"" ++ s ++ "\""

/-! ## `saveDataLatencyThroughputTimeseries` -/

/-- An element of `st.TimeSeries`, with the fields the function reads (the declaration of
the type is not among the sources); latencies are `time.Duration`s. -/
structure DataPoint where
  Timestamp : Int
  MinLatency : Int
  AvgLatency : Int
  MaxLatency : Int
  ThroughPut : Int
  deriving DecidableEq

/-- The fields of `TestGroup` that the function reads (the declaration of the type is not
among the sources). -/
structure TestGroup where
  ClientNumber : Int
  RequestNumber : Int

/-- The index expression `tsToClientN[ts]` on a Go map given by its entries: the value
stored under the key, the zero value when the key is absent. -/
def mapGet (m : List (Int × Int)) (k : Int) : Int :=
  match m.lookup k with
  | some v => v
  | none => 0

/-- The value pushed onto `CONTROL-CLIENT-NUM` for one element of the time series. -/
def clientNumCell (gcfg : TestGroup) (tsToClientN : List (Int × Int)) (d : DataPoint) : Int :=
  if tsToClientN.length = 0 then gcfg.ClientNumber else mapGet tsToClientN d.Timestamp

/-- The first frame of `saveDataLatencyThroughputTimeseries`, the one written to
`ClientLatencyThroughputTimeseriesPath`: six columns, one value per element of
`st.TimeSeries`.  (The second frame, built from `processTimeSeries`, is not modelled.) -/
def saveDataLatencyThroughputTimeseries {φ : Type} (gcfg : TestGroup)
    (timeSeries : List DataPoint) (tsToClientN : List (Int × Int)) :
    Except String (List (Column φ)) :=
  let c1 : Column φ := ⟨"UNIX-SECOND", timeSeries.map (fun d => Cell.int d.Timestamp)⟩
  let c2 : Column φ :=
    ⟨"CONTROL-CLIENT-NUM", timeSeries.map (fun d => Cell.int (clientNumCell gcfg tsToClientN d))⟩
  let c3 : Column φ := ⟨"MIN-LATENCY-MS", timeSeries.map (fun d => Cell.fMilli d.MinLatency)⟩
  let c4 : Column φ := ⟨"AVG-LATENCY-MS", timeSeries.map (fun d => Cell.fMilli d.AvgLatency)⟩
  let c5 : Column φ := ⟨"MAX-LATENCY-MS", timeSeries.map (fun d => Cell.fMilli d.MaxLatency)⟩
  let c6 : Column φ := ⟨"AVG-THROUGHPUT", timeSeries.map (fun d => Cell.int d.ThroughPut)⟩
  match addColumn [] c1 with
  | Except.error e => Except.error e
  | Except.ok fr1 =>
  match addColumn fr1 c2 with
  | Except.error e => Except.error e
  | Except.ok fr2 =>
  match addColumn fr2 c3 with
  | Except.error e => Except.error e
  | Except.ok fr3 =>
  match addColumn fr3 c4 with
  | Except.error e => Except.error e
  | Except.ok fr4 =>
  match addColumn fr4 c5 with
  | Except.error e => Except.error e
  | Except.ok fr5 => addColumn fr5 c6

/-- Row `i` of a frame: the `i`-th value of every column. -/
def frameRow {φ : Type} (fr : List (Column φ)) (i : Nat) : List (Option (Cell φ)) :=
  fr.map (fun c => c.cells.get? i)

/-! ## The retry loop of `UploadToGoogle` -/

/-- The loop `for k := 0; k < 30; k++`, entered at `k` with `fuel = 30 - k` iterations
left.  `outcome k` is what the `(k+1)`-th call of `u.UploadFile` returns (`none` is a nil
error).  The result is the number of calls made so far and the final value of `uerr`. -/
def retryFrom {ε : Type} (outcome : Nat → Option ε) : Nat → Nat → Option ε → Nat × Option ε
  | 0, k, uerr => (k, uerr)
  | fuel + 1, k, _ =>
    match outcome k with
    | some e => retryFrom outcome fuel (k + 1) (some e)
    | none => (k + 1, none)

/-- The loop of `UploadToGoogle` from `var uerr error` to `return uerr`: the number of
calls of `UploadFile` and the returned error. -/
def uploadRetry {ε : Type} (outcome : Nat → Option ε) : Nat × Option ε :=
  retryFrom outcome 30 0 none

/-! ## Go string and path functions

The standard-library functions the agent and `fileinspect` call, on lists of characters. -/

/-- Go's `strings.Index(s, sep)`: the position of the leftmost occurrence of `sep`. -/
def indexChars (sep : List Char) : List Char → Option Nat
  | [] => if sep.isPrefixOf [] then some 0 else none
  | c :: cs =>
    if sep.isPrefixOf (c :: cs) then some 0 else (indexChars sep cs).map (fun m => m + 1)

/-- The loop of Go's `strings.Split` for a non-empty separator: cut at the leftmost
occurrence and go on behind it; at most `fuel` cuts. -/
def splitAux (sep : List Char) : Nat → List Char → List (List Char)
  | 0, s => [s]
  | fuel + 1, s =>
    match indexChars sep s with
    | none => [s]
    | some m => s.take m :: splitAux sep fuel (s.drop (m + sep.length))

/-- Go's `strings.Split(s, sep)` for a non-empty `sep` (a string has at most `len(s)`
occurrences of it). -/
def goSplit (s sep : String) : List String :=
  (splitAux sep.data s.data.length s.data).map String.mk

/-- Go's `strings.Join(elems, sep)`. -/
def joinChars (sep : List Char) : List (List Char) → List Char
  | [] => []
  | [a] => a
  | a :: b :: rest => a ++ sep ++ joinChars sep (b :: rest)

/-- Go's `strings.Join(elems, sep)` on strings. -/
def goJoin (elems : List String) (sep : String) : String :=
  String.mk (joinChars sep.data (elems.map String.data))

/-- The loop of `strings.Replace(s, old, "", -1)` for a non-empty `old`: delete the
leftmost occurrence and go on behind it. -/
def removeAux (old : List Char) : Nat → List Char → List Char
  | 0, s => s
  | fuel + 1, s =>
    match indexChars old s with
    | none => s
    | some m => s.take m ++ removeAux old fuel (s.drop (m + old.length))

/-- Go's `strings.Replace(s, old, "", -1)`: every non-overlapping occurrence of `old` is
deleted, leftmost first; an empty `old` leaves `s` as it is. -/
def goRemoveAll (s old : List Char) : List Char :=
  if old = [] then s else removeAux old s.length s

/-- The elements of a path between its separators `/`. -/
def splitSlash : List Char → List (List Char)
  | [] => [[]]
  | c :: cs =>
    if c = '/' then [] :: splitSlash cs
    else
      match splitSlash cs with
      | [] => [[c]]
      | h :: t => (c :: h) :: t

/-- The element loop of `filepath.Clean`: `st` holds the elements written so far, last
first.  Empty and `.` elements are dropped; `..` removes the last element written when
there is one that is not itself a kept `..`, is dropped in a rooted path, and is kept
otherwise. -/
def cleanElems (rooted : Bool) : List (List Char) → List (List Char) → List (List Char)
  | [], st => st.reverse
  | e :: es, st =>
    if e = [] ∨ e = ['.'] then cleanElems rooted es st
    else if e = ['.', '.'] then
      match st with
      | [] => if rooted then cleanElems rooted es [] else cleanElems rooted es [e]
      | top :: below =>
        if top = ['.', '.'] then cleanElems rooted es (e :: st)
        else cleanElems rooted es below
    else cleanElems rooted es (e :: st)

/-- Go's `filepath.Clean` on Unix. -/
def pathClean (p : List Char) : List Char :=
  let rooted := p.head? = some '/'
  let body := joinChars ['/'] (cleanElems rooted (splitSlash p) [])
  if rooted then '/' :: body
  else if body = [] then ['.'] else body

/-- Go's `filepath.Join` on Unix: the elements from the first non-empty one on, joined by
`/` and cleaned; the empty string when all are empty. -/
def pathJoin (elems : List (List Char)) : List Char :=
  match elems.dropWhile (fun e => e = []) with
  | [] => []
  | es => pathClean (joinChars ['/'] es)

/-- The replacement `html/template` applies to one character of a value printed in text
context. -/
def htmlEscapeChar (c : Char) : List Char :=
  if c = Char.ofNat 0 then [Char.ofNat 0xFFFD]
  else if c = '"' then "&#34;".data
  else if c = '&' then "&amp;".data
  else if c = '\'' then "&#39;".data
  else if c = '+' then "&#43;".data
  else if c = '<' then "&lt;".data
  else if c = '>' then "&gt;".data
  else [c]

/-- The text `html/template` prints for a string value in text context. -/
def htmlEscape (s : String) : String := String.mk (s.data.flatMap htmlEscapeChar)

/-! ## `startZookeeper` -/

/-- The type `ZookeeperPeer`. -/
structure ZookeeperPeer where
  MyID : Int
  IP : String
  deriving DecidableEq

/-- The type `ZookeeperConfig`, the value handed to the template. -/
structure ZookeeperConfig where
  TickTime : Int
  DataDir : String
  ClientPort : Int
  InitLimit : Int
  SyncLimit : Int
  MaxClientConnections : Int
  SnapCount : Int
  Peers : List ZookeeperPeer

/-- The fields of `flags` that `startZookeeper` reads (the declaration of the type is not
among the sources). -/
structure Flags where
  javaExec : String
  zkDataDir : String
  zkWorkDir : String
  zkConfig : String

/-- The fields of the request `t.req` that `startZookeeper` reads
(`t.req.ZookeeperConfig.*` and `t.req.PeerIPsString`). -/
structure Request where
  MyID : Int
  TickTime : Int
  ClientPort : Int
  InitLimit : Int
  SyncLimit : Int
  MaxClientConnections : Int
  SnapCount : Int
  PeerIPsString : String

/-- The answers of the operating system to the calls `startZookeeper` makes, through the
helpers `exist` and `toFile` (not among the sources) and the packages `os` and `os/exec`;
`none` is a nil error. -/
structure OS where
  exist : String → Bool
  removeAll : String → Option String
  mkdirAll : String → Option String
  chdir : String → Option String
  toFile : String → String → Option String
  start : List String → Except String Int

/-- A call that changes the machine, in the order made. -/
inductive Effect where
  | removeAll (path : String)
  | mkdirAll (path : String)
  | chdir (path : String)
  | toFile (txt : String) (path : String)
  | start (args : List String)
  deriving DecidableEq

/-- The loop `for i := range peerIPs` entered at index `i`: the peers it appends. -/
def buildPeers : Nat → List String → List ZookeeperPeer
  | _, [] => []
  | i, ip :: rest => ⟨(i : Int) + 1, ip⟩ :: buildPeers (i + 1) rest

/-- The peers `startZookeeper` builds from `t.req.PeerIPsString`. -/
def zkPeers (peerIPsString : String) : List ZookeeperPeer :=
  buildPeers 0 (goSplit peerIPsString "___")

/-- The body of `range .Peers` in `zkTemplate` for one peer. -/
def renderPeer (p : ZookeeperPeer) : String :=
  "server." ++ toString p.MyID ++ "=" ++ htmlEscape p.IP ++ ":2888:3888\n"

/-- The text `tpl.Execute` writes for `zkTemplate` (parsed by `html/template`).  Every
field the template names exists, so the execution has no error to return. -/
def renderZk (cfg : ZookeeperConfig) : String :=
  "tickTime=" ++ toString cfg.TickTime ++ "\n" ++
  "dataDir=" ++ htmlEscape cfg.DataDir ++ "\n" ++
  "clientPort=" ++ toString cfg.ClientPort ++ "\n" ++
  "initLimit=" ++ toString cfg.InitLimit ++ "\n" ++
  "syncLimit=" ++ toString cfg.SyncLimit ++ "\n" ++
  "maxClientCnxns=" ++ toString cfg.MaxClientConnections ++ "\n" ++
  "snapCount=" ++ toString cfg.SnapCount ++ "\n" ++
  String.join (cfg.Peers.map renderPeer) ++ "\n"

/-- The constant `flagString` of `startZookeeper`. -/
def flagString : String :=
  "-cp zookeeper-3.4.9.jar:lib/slf4j-api-1.6.1.jar:lib/slf4j-log4j12-1.6.1.jar:" ++
  "lib/log4j-1.2.16.jar:conf org.apache.zookeeper.server.quorum.QuorumPeerMain"

/-- The configuration value `cfg` that `startZookeeper` builds. -/
def zkConfigOf (fs : Flags) (req : Request) : ZookeeperConfig :=
  { TickTime := req.TickTime
    DataDir := fs.zkDataDir
    ClientPort := req.ClientPort
    InitLimit := req.InitLimit
    SyncLimit := req.SyncLimit
    MaxClientConnections := req.MaxClientConnections
    Peers := zkPeers req.PeerIPsString
    SnapCount := req.SnapCount }

/-- The function `startZookeeper`: the calls made, in order, and the returned error
(`none` is nil).  `quote s` is what `%q` prints for `s`, `shell` the package variable
`shell`, `globalJavaExec` the field `globalFlags.javaExec` of the package variable
`globalFlags`. -/
def startZookeeper (os : OS) (quote : String → String) (shell : String)
    (globalJavaExec : String) (fs : Flags) (req : Request) : List Effect × Option String :=
  if !os.exist fs.javaExec then
    ([], some ("Java binary " ++ quote globalJavaExec ++ " does not exist"))
  else
  match os.removeAll fs.zkDataDir with
  | some e => ([Effect.removeAll fs.zkDataDir], some e)
  | none =>
  match os.mkdirAll fs.zkDataDir with
  | some e => ([Effect.removeAll fs.zkDataDir, Effect.mkdirAll fs.zkDataDir], some e)
  | none =>
  let eff3 := [Effect.removeAll fs.zkDataDir, Effect.mkdirAll fs.zkDataDir,
    Effect.chdir fs.zkWorkDir]
  match os.chdir fs.zkWorkDir with
  | some e => (eff3, some e)
  | none =>
  let ipath := String.mk (pathJoin [fs.zkDataDir.data, "myid".data])
  let eff4 := eff3 ++ [Effect.toFile (toString req.MyID) ipath]
  match os.toFile (toString req.MyID) ipath with
  | some e => (eff4, some e)
  | none =>
  let zc := renderZk (zkConfigOf fs req)
  let eff5 := eff4 ++ [Effect.toFile zc fs.zkConfig]
  match os.toFile zc fs.zkConfig with
  | some e => (eff5, some e)
  | none =>
  let args := [shell, "-c", fs.javaExec ++ " " ++ flagString ++ " " ++ fs.zkConfig]
  match os.start args with
  | Except.error e => (eff5 ++ [Effect.start args], some e)
  | Except.ok _ => (eff5 ++ [Effect.start args], none)

/-! ## `fileinspect` -/

mutual
/-- A file-system entry: a file with its size, or a directory with its own size and its
entries. -/
inductive Node where
  | file (size : Int)
  | dir (size : Int) (children : Forest)
/-- The entries of a directory with their names, in the lexical order in which
`filepath.Walk` reads them. -/
inductive Forest where
  | nil
  | cons (name : String) (node : Node) (rest : Forest)
end

/-- What the visit function needs of an `os.FileInfo`. -/
structure FileInfo where
  isDir : Bool
  size : Int
  deriving DecidableEq

mutual
/-- The calls of the visit function that `filepath.Walk` makes below `path`, in order:
the entry itself, then, for a directory, the walk of every child at
`filepath.Join(path, name)`. -/
def walkNode (path : List Char) : Node → List (List Char × FileInfo)
  | Node.file size => [(path, ⟨false, size⟩)]
  | Node.dir size children => (path, ⟨true, size⟩) :: walkForest path children
/-- The walk of the entries of the directory at `path`. -/
def walkForest (path : List Char) : Forest → List (List Char × FileInfo)
  | Forest.nil => []
  | Forest.cons name node rest =>
    walkNode (pathJoin [path, name.data]) node ++ walkForest path rest
end

/-- The assignment `rm[key] = f` on a Go map given by its entries. -/
def mapSet (m : List (String × FileInfo)) (key : String) (f : FileInfo) :
    List (String × FileInfo) :=
  if m.any (fun e => e.1 == key) then m.map (fun e => if e.1 == key then (key, f) else e)
  else m ++ [(key, f)]

/-- The closure `visit` of `Walk` for an entry that exists (`f != nil`), with `wd` the
result of `os.Getwd()`. -/
def visit (wd : String) (rm : List (String × FileInfo)) (entry : List Char × FileInfo) :
    List (String × FileInfo) :=
  if !entry.2.isDir then
    mapSet rm (String.mk (pathJoin [wd.data, goRemoveAll entry.1 wd.data])) entry.2
  else rm

/-- The map `Walk(targetDir)` returns when `targetDir` names the entry `root`, the
working directory is `wd` and no system call fails. -/
def Walk (wd : String) (targetDir : String) (root : Node) : List (String × FileInfo) :=
  (walkNode targetDir.data root).foldl (visit wd) []

/-- The number `Size(targetDir)` returns under the same conditions. -/
def Size (wd : String) (targetDir : String) (root : Node) : Int :=
  ((Walk wd targetDir root).map (fun e => e.2.size)).sum

mutual
/-- The sizes of all non-directory files below an entry, the entry included. -/
def fileSizes : Node → List Int
  | Node.file size => [size]
  | Node.dir _ children => forestFileSizes children
/-- The sizes of all non-directory files below the entries of a directory. -/
def forestFileSizes : Forest → List Int
  | Forest.nil => []
  | Forest.cons _ node rest => fileSizes node ++ forestFileSizes rest
end

/-! ## Concrete inputs -/

/-- A `Stats` value with two error kinds. -/
def statsTwoErrors : Stats Unit :=
  { Total := (), RPS := (), Slowest := (), Fastest := (), Average := (), Stddev := (),
    ErrorDist := [("context deadline exceeded", 3), ("connection refused", 1)] }

/-- An operating system on which every call of `startZookeeper` succeeds. -/
def osAllOk : OS :=
  { exist := fun _ => true
    removeAll := fun _ => none
    mkdirAll := fun _ => none
    chdir := fun _ => none
    toFile := fun _ _ => none
    start := fun _ => Except.ok 4242 }

/-- An operating system without any file: `exist` answers `false`. -/
def osNoFile : OS :=
  { exist := fun _ => false
    removeAll := fun _ => none
    mkdirAll := fun _ => none
    chdir := fun _ => none
    toFile := fun _ _ => none
    start := fun _ => Except.ok 4242 }

/-- Flags of an agent whose Java binary is `/opt/java`. -/
def zkFlags : Flags :=
  { javaExec := "/opt/java", zkDataDir := "/data/zk", zkWorkDir := "/opt/zookeeper",
    zkConfig := "zoo.cfg" }

/-- A request whose `PeerIPsString` is empty. -/
def zkRequestNoPeers : Request :=
  { MyID := 1, TickTime := 2000, ClientPort := 2181, InitLimit := 5, SyncLimit := 5,
    MaxClientConnections := 60, SnapCount := 100000, PeerIPsString := "" }

/-- The directory `/a` holding the file `x` (7 bytes) and the directory `a`, which holds
another file `x` (5 bytes). -/
def treeTwoFiles : Node :=
  Node.dir 4096
    (Forest.cons "a" (Node.dir 4096 (Forest.cons "x" (Node.file 5) Forest.nil))
      (Forest.cons "x" (Node.file 7) Forest.nil))

/-! ## Theorems -/

theorem bitLenAux_spec (fuel : Nat) : ∀ n, n ≤ fuel →
    n < 2 ^ bitLenAux fuel n ∧ (n ≠ 0 → 2 ^ (bitLenAux fuel n - 1) ≤ n) := by
  induction fuel with
  | zero =>
    intro n hn
    have h0 : n = 0 := by omega
    subst h0
    simp [bitLenAux]
  | succ fuel ih =>
    intro n hn
    by_cases h0 : n = 0
    · subst h0
      simp [bitLenAux]
    · have hlt : n / 2 ≤ fuel := by omega
      obtain ⟨h1, h2⟩ := ih (n / 2) hlt
      simp only [bitLenAux, if_neg h0]
      refine ⟨?_, fun _ => ?_⟩
      · rw [pow_succ]; omega
      · simp only [Nat.add_sub_cancel]
        by_cases h3 : n / 2 = 0
        · have : bitLenAux fuel (n / 2) = 0 := by
            rw [h3]; cases fuel <;> simp [bitLenAux]
          rw [this]; simp; omega
        · have h4 := h2 h3
          have h5 : 0 < bitLenAux fuel (n / 2) := by
            rcases Nat.eq_zero_or_pos (bitLenAux fuel (n / 2)) with h | h
            · rw [h] at h1; simp at h1; omega
            · exact h
          have h6 : bitLenAux fuel (n / 2) = (bitLenAux fuel (n / 2) - 1) + 1 := by omega
          rw [h6, pow_succ]; omega

theorem lt_two_pow_bitLen (n : Nat) : n < 2 ^ bitLen n :=
  (bitLenAux_spec n n (le_refl n)).1

theorem two_pow_bitLen_le (n : Nat) (h : n ≠ 0) : 2 ^ (bitLen n - 1) ≤ n :=
  (bitLenAux_spec n n (le_refl n)).2 h

theorem bitLen_zero : bitLen 0 = 0 := by simp [bitLen, bitLenAux]

theorem bitLen_pos (n : Nat) (h : n ≠ 0) : 0 < bitLen n := by
  rcases Nat.eq_zero_or_pos (bitLen n) with h0 | h0
  · have := lt_two_pow_bitLen n
    rw [h0] at this; simp at this; exact absurd this h
  · exact h0

theorem bitLen_le_of_lt (n k : Nat) (h : n < 2 ^ k) : bitLen n ≤ k := by
  by_cases h0 : n = 0
  · subst h0; rw [bitLen_zero]; exact Nat.zero_le _
  · have h1 := two_pow_bitLen_le n h0
    have h2 : 2 ^ (bitLen n - 1) < 2 ^ k := lt_of_le_of_lt h1 h
    have h3 := (Nat.pow_lt_pow_iff_right (by decide : 1 < 2)).1 h2
    have := bitLen_pos n h0
    omega

theorem lt_bitLen_of_le (n k : Nat) (h : 2 ^ k ≤ n) : k < bitLen n := by
  have h1 := lt_two_pow_bitLen n
  have h2 : 2 ^ k < 2 ^ bitLen n := lt_of_le_of_lt h h1
  exact (Nat.pow_lt_pow_iff_right (by decide : 1 < 2)).1 h2

theorem bitLen_mono (m n : Nat) (h : m ≤ n) : bitLen m ≤ bitLen n :=
  bitLen_le_of_lt m _ (lt_of_le_of_lt h (lt_two_pow_bitLen n))

/-! ### Rounding to the binary64 grid -/

theorem f64RoundNat_cases (p q : Nat) :
    f64RoundNat p q = p / (q * 2 ^ f64Expo (p / q)) * 2 ^ f64Expo (p / q) ∨
    (f64RoundNat p q = (p / (q * 2 ^ f64Expo (p / q)) + 1) * 2 ^ f64Expo (p / q) ∧
      q * 2 ^ f64Expo (p / q) ≤ 2 * (p % (q * 2 ^ f64Expo (p / q)))) := by
  unfold f64RoundNat
  simp only
  split_ifs
  · left; rfl
  · right; exact ⟨rfl, by omega⟩
  · left; rfl
  · right; exact ⟨rfl, by omega⟩

theorem le_div_mul_of_dvd (a x f : Nat) (ha : 0 < a) (hx : a ∣ x) (h : x ≤ f) :
    x ≤ f / a * a := by
  obtain ⟨c, rfl⟩ := hx
  have hc : c ≤ f / a := (Nat.le_div_iff_mul_le ha).2 (by rw [Nat.mul_comm]; exact h)
  calc a * c = c * a := Nat.mul_comm _ _
    _ ≤ f / a * a := Nat.mul_le_mul_right a hc

theorem grid_of_mul_pow (r k : Nat) (hr : r ≤ 2 ^ 53) :
    2 ^ f64Expo (r * 2 ^ k) ∣ r * 2 ^ k := by
  rcases Nat.lt_or_ge r (2 ^ 53) with h | h
  · have h1 : r * 2 ^ k < 2 ^ (53 + k) := by
      rw [pow_add]
      exact Nat.mul_lt_mul_of_pos_right h (Nat.pow_pos (by decide))
    have h2 := bitLen_le_of_lt _ _ h1
    have h3 : f64Expo (r * 2 ^ k) ≤ k := by unfold f64Expo; omega
    exact dvd_trans (pow_dvd_pow 2 h3) (Dvd.intro_left r rfl)
  · have hr2 : r = 2 ^ 53 := le_antisymm hr h
    have h0 : r * 2 ^ k = 2 ^ (53 + k) := by rw [hr2, pow_add]
    have h1 : r * 2 ^ k < 2 ^ (54 + k) := by
      rw [h0]
      exact Nat.pow_lt_pow_right (by decide) (by omega)
    have h2 := bitLen_le_of_lt _ _ h1
    have h3 : f64Expo (r * 2 ^ k) ≤ 53 + k := by unfold f64Expo; omega
    rw [h0] at h3 ⊢
    exact pow_dvd_pow 2 h3

theorem f64RoundNat_le (p q B : Nat) (hq : 0 < q) (hB : 2 ^ f64Expo B ∣ B)
    (h : p ≤ B * q) : f64RoundNat p q ≤ B := by
  have hf : p / q ≤ B := Nat.div_le_of_le_mul (by rw [Nat.mul_comm]; exact h)
  have hk : f64Expo (p / q) ≤ f64Expo B := by
    unfold f64Expo
    exact Nat.sub_le_sub_right (bitLen_mono _ _ hf) 53
  obtain ⟨c, hc⟩ := dvd_trans (pow_dvd_pow 2 hk) hB
  have hcases := f64RoundNat_cases p q
  generalize f64Expo (p / q) = k at hk hc hcases ⊢
  have h2k : 0 < 2 ^ k := Nat.pow_pos (by decide)
  have hden : 0 < q * 2 ^ k := Nat.mul_pos hq h2k
  have hdm := Nat.div_add_mod p (q * 2 ^ k)
  have hBq : B * q = (q * 2 ^ k) * c := by rw [hc]; ring
  rcases hcases with h1 | ⟨h1, h2⟩
  · rw [h1, hc]
    have : p / (q * 2 ^ k) ≤ c := by
      apply Nat.le_of_mul_le_mul_left _ hden
      calc (q * 2 ^ k) * (p / (q * 2 ^ k)) ≤ p := Nat.mul_div_le _ _
        _ ≤ B * q := h
        _ = (q * 2 ^ k) * c := hBq
    calc p / (q * 2 ^ k) * 2 ^ k ≤ c * 2 ^ k := Nat.mul_le_mul_right _ this
      _ = 2 ^ k * c := Nat.mul_comm _ _
  · rw [h1, hc]
    have hrem : 0 < p % (q * 2 ^ k) := by omega
    have : p / (q * 2 ^ k) < c := by
      apply Nat.lt_of_mul_lt_mul_left (a := q * 2 ^ k)
      calc (q * 2 ^ k) * (p / (q * 2 ^ k)) < p := by omega
        _ ≤ B * q := h
        _ = (q * 2 ^ k) * c := hBq
    calc (p / (q * 2 ^ k) + 1) * 2 ^ k ≤ c * 2 ^ k := Nat.mul_le_mul_right _ this
      _ = 2 ^ k * c := Nat.mul_comm _ _

theorem le_f64RoundNat (p q B : Nat) (hq : 0 < q) (hB : 2 ^ f64Expo B ∣ B)
    (h : B * q ≤ p) : B ≤ f64RoundNat p q := by
  have hf : B ≤ p / q := (Nat.le_div_iff_mul_le hq).2 h
  have hquo : p / (q * 2 ^ f64Expo (p / q)) = p / q / 2 ^ f64Expo (p / q) :=
    (Nat.div_div_eq_div_mul _ _ _).symm
  have h2k : 0 < 2 ^ f64Expo (p / q) := Nat.pow_pos (by decide)
  have hlow : B ≤ p / (q * 2 ^ f64Expo (p / q)) * 2 ^ f64Expo (p / q) := by
    rw [hquo]
    rcases Nat.lt_or_ge (bitLen B) (bitLen (p / q)) with hlt | hge
    · have hne : p / q ≠ 0 := by
        intro h0
        rw [h0, bitLen_zero] at hlt
        omega
      have hx := two_pow_bitLen_le _ hne
      have hd : 2 ^ f64Expo (p / q) ∣ 2 ^ (bitLen (p / q) - 1) := by
        apply pow_dvd_pow
        unfold f64Expo
        omega
      have hB2 : B < 2 ^ (bitLen (p / q) - 1) :=
        lt_of_lt_of_le (lt_two_pow_bitLen B) (Nat.pow_le_pow_right (by decide) (by omega))
      exact le_trans (le_of_lt hB2) (le_div_mul_of_dvd _ _ _ h2k hd hx)
    · have heq : bitLen B = bitLen (p / q) := le_antisymm (bitLen_mono _ _ hf) hge
      have hd : 2 ^ f64Expo (p / q) ∣ B := by
        have : f64Expo (p / q) = f64Expo B := by unfold f64Expo; rw [heq]
        rw [this]; exact hB
      exact le_div_mul_of_dvd _ _ _ h2k hd hf
  rcases f64RoundNat_cases p q with h1 | ⟨h1, _⟩
  · rw [h1]; exact hlow
  · rw [h1]
    exact le_trans hlow (Nat.mul_le_mul_right _ (Nat.le_succ _))

theorem f64RoundNat_exact (n : Nat) (h : 2 ^ f64Expo n ∣ n) : f64RoundNat n 1 = n :=
  le_antisymm (f64RoundNat_le n 1 n (by decide) h (by simp))
    (le_f64RoundNat n 1 n (by decide) h (by simp))

theorem f64RoundNat_grid (p q : Nat) :
    2 ^ f64Expo (f64RoundNat p q) ∣ f64RoundNat p q := by
  have hquo : p / (q * 2 ^ f64Expo (p / q)) = p / q / 2 ^ f64Expo (p / q) :=
    (Nat.div_div_eq_div_mul _ _ _).symm
  have h2k : 0 < 2 ^ f64Expo (p / q) := Nat.pow_pos (by decide)
  have hlt : p / q / 2 ^ f64Expo (p / q) < 2 ^ 53 := by
    rw [Nat.div_lt_iff_lt_mul h2k, ← pow_add]
    refine lt_of_lt_of_le (lt_two_pow_bitLen _) (Nat.pow_le_pow_right (by decide) ?_)
    unfold f64Expo
    omega
  rcases f64RoundNat_cases p q with h1 | ⟨h1, _⟩
  · rw [h1, hquo]
    exact grid_of_mul_pow _ _ (le_of_lt hlt)
  · rw [h1, hquo]
    exact grid_of_mul_pow _ _ hlt

theorem f64One_pos : 0 < f64One := Nat.pow_pos (by decide)

theorem two_pow_dvd_f64One (k : Nat) (h : k ≤ 1074) : 2 ^ k ∣ f64One :=
  pow_dvd_pow 2 h

theorem f64Expo_le_of_lt (n : Nat) (h : n < 2 ^ 53 * f64One) : f64Expo n ≤ 1074 := by
  have h1 : n < 2 ^ 1127 := by
    have : (2 : Nat) ^ 53 * f64One = 2 ^ 1127 := by
      unfold f64One; rw [← pow_add]
    rw [this] at h; exact h
  have := bitLen_le_of_lt _ _ h1
  unfold f64Expo
  omega

/-- Dividing a binary64 below `2^53` by ten and truncating gives the exact integer
quotient: rounding the quotient never reaches the next integer. -/
theorem f64RoundNat_div10 (M : Nat) (hM : 2 ^ f64Expo M ∣ M) (hlt : M < 2 ^ 53 * f64One) :
    f64RoundNat M 10 / f64One = M / (10 * f64One) := by
  have hU := f64One_pos
  have h10U : 0 < 10 * f64One := by omega
  have ht10 : M / (10 * f64One) * (10 * f64One) ≤ M := Nat.div_mul_le_self _ _
  have ht : 10 * (M / (10 * f64One)) < 2 ^ 53 := by
    apply Nat.lt_of_mul_lt_mul_right (a := f64One)
    calc 10 * (M / (10 * f64One)) * f64One
        = M / (10 * f64One) * (10 * f64One) := by ring
      _ ≤ M := ht10
      _ < 2 ^ 53 * f64One := hlt
  have ht' : M / (10 * f64One) + 1 ≤ 2 ^ 53 := by
    norm_num at ht ⊢
    omega
  apply le_antisymm
  · -- the rounded quotient stays below the next integer
    rw [← Nat.lt_succ_iff, Nat.div_lt_iff_lt_mul hU]
    by_contra hcon
    have hD : (M / (10 * f64One) + 1) * f64One ≤ f64RoundNat M 10 := Nat.le_of_not_lt hcon
    have hMlt : M < (M / (10 * f64One) + 1) * f64One * 10 := by
      have := Nat.lt_mul_div_succ M h10U
      calc M < 10 * f64One * (M / (10 * f64One) + 1) := this
        _ = (M / (10 * f64One) + 1) * f64One * 10 := by ring
    have hf : M / 10 < (M / (10 * f64One) + 1) * f64One :=
      (Nat.div_lt_iff_lt_mul (by decide)).2 hMlt
    have hquo : M / (10 * 2 ^ f64Expo (M / 10)) = M / 10 / 2 ^ f64Expo (M / 10) :=
      (Nat.div_div_eq_div_mul _ _ _).symm
    have hk1074 : f64Expo (M / 10) ≤ 1074 :=
      f64Expo_le_of_lt _ (lt_of_lt_of_le hf (Nat.mul_le_mul_right _ ht'))
    have hbitf : bitLen (M / 10) ≤ f64Expo (M / 10) + 53 := by unfold f64Expo; omega
    have hcases := f64RoundNat_cases M 10
    have hdm := Nat.div_add_mod M (10 * 2 ^ f64Expo (M / 10))
    have hexpo : f64Expo (M / 10) = bitLen (M / 10) - 53 := rfl
    generalize f64Expo (M / 10) = k at hquo hk1074 hcases hdm hbitf hexpo
    have hP : 0 < 2 ^ k := Nat.pow_pos (by decide)
    have hqf : M / 10 / 2 ^ k * 2 ^ k ≤ M / 10 := Nat.div_mul_le_self _ _
    rcases hcases with h1 | ⟨h1, h2⟩
    · rw [h1, hquo] at hD
      omega
    · rw [h1, hquo] at hD
      rw [hquo] at hdm
      obtain ⟨u, hu⟩ := two_pow_dvd_f64One k hk1074
      -- the first integer above is the grid point right above the quotient
      have hc : (M / (10 * f64One) + 1) * f64One = 2 ^ k * ((M / (10 * f64One) + 1) * u) := by
        rw [hu]; ring
      generalize (M / (10 * f64One) + 1) * u = c at hc
      have hq1 : M / 10 / 2 ^ k < c := by
        apply Nat.lt_of_mul_lt_mul_left (a := 2 ^ k)
        calc 2 ^ k * (M / 10 / 2 ^ k) = M / 10 / 2 ^ k * 2 ^ k := Nat.mul_comm _ _
          _ ≤ M / 10 := hqf
          _ < (M / (10 * f64One) + 1) * f64One := hf
          _ = 2 ^ k * c := hc
      have hq2 : c ≤ M / 10 / 2 ^ k + 1 := by
        apply Nat.le_of_mul_le_mul_left _ hP
        calc 2 ^ k * c = (M / (10 * f64One) + 1) * f64One := hc.symm
          _ ≤ (M / 10 / 2 ^ k + 1) * 2 ^ k := hD
          _ = 2 ^ k * (M / 10 / 2 ^ k + 1) := Nat.mul_comm _ _
      have hceq : c = M / 10 / 2 ^ k + 1 := le_antisymm hq2 hq1
      -- so `M` is within `5 * 2^k` below ten times that integer
      have hnear : (M / (10 * f64One) + 1) * f64One * 10 ≤ M + 5 * 2 ^ k := by
        have e1 : (M / (10 * f64One) + 1) * f64One * 10
            = 10 * 2 ^ k * (M / 10 / 2 ^ k) + 10 * 2 ^ k := by
          rw [hc, hceq]; ring
        rw [e1]
        omega
      -- but `M` lies on a grid at least eight times coarser
      have hbl53 : 53 ≤ bitLen (M / 10) := by
        by_contra hlt53
        have hk0 : k = 0 := by omega
        subst hk0
        have h3 : M / 10 < 2 ^ 53 :=
          lt_of_lt_of_le (lt_two_pow_bitLen _) (Nat.pow_le_pow_right (by decide) (by omega))
        have h4 : (2 : Nat) ^ 53 < f64One := Nat.pow_lt_pow_right (by decide) (by decide)
        have h5 : f64One ≤ (M / (10 * f64One) + 1) * f64One := Nat.le_mul_of_pos_left _ (by omega)
        simp at hD
        omega
      have hfne : M / 10 ≠ 0 := by
        intro h0
        rw [h0, bitLen_zero] at hbl53
        omega
      have hMbig : 2 ^ (bitLen (M / 10) + 2) ≤ M := by
        have e1 := two_pow_bitLen_le _ hfne
        have e2 : 10 * (M / 10) ≤ M := Nat.mul_div_le _ _
        have e3 : 2 ^ (bitLen (M / 10) + 2) = 8 * 2 ^ (bitLen (M / 10) - 1) := by
          have : bitLen (M / 10) + 2 = (bitLen (M / 10) - 1) + 3 := by omega
          rw [this, pow_add]; ring
        omega
      have hbM := lt_bitLen_of_le _ _ hMbig
      have hkM : k + 3 ≤ f64Expo M := by unfold f64Expo; omega
      have hkM1074 := f64Expo_le_of_lt M hlt
      have hd1 : 2 ^ (k + 3) ∣ M := dvd_trans (pow_dvd_pow 2 hkM) hM
      have hd2 : 2 ^ (k + 3) ∣ (M / (10 * f64One) + 1) * f64One * 10 :=
        Dvd.dvd.mul_right
          (Dvd.dvd.mul_left (two_pow_dvd_f64One _ (le_trans hkM hkM1074)) _) _
      have hd3 := (Nat.dvd_sub' hd2 hd1)
      have hpos : 0 < (M / (10 * f64One) + 1) * f64One * 10 - M := by omega
      have hle := Nat.le_of_dvd hpos hd3
      have e8 : 2 ^ (k + 3) = 8 * 2 ^ k := by rw [pow_add]; ring
      omega
  · -- the rounded quotient is at least the integer quotient
    rw [Nat.le_div_iff_mul_le hU]
    apply le_f64RoundNat _ _ _ (by decide)
    · exact grid_of_mul_pow (M / (10 * f64One)) 1074 (le_trans (Nat.le_succ _) ht')
    · calc M / (10 * f64One) * f64One * 10 = M / (10 * f64One) * (10 * f64One) := by ring
        _ ≤ M := ht10

theorem lt_overflow (n : Nat) (h : n ≤ 2 ^ 53 * f64One) : n < 2 ^ 2098 := by
  have h1 : (2 : Nat) ^ 53 * f64One = 2 ^ 1127 := by
    unfold f64One; rw [← pow_add]
  have h2 : (2 : Nat) ^ 1127 < 2 ^ 2098 := Nat.pow_lt_pow_right (by decide) (by decide)
  omega

theorem ten_mul_div_lt (M : Nat) (hlt : M < 2 ^ 53 * f64One) :
    10 * (M / (10 * f64One)) < 2 ^ 53 := by
  apply Nat.lt_of_mul_lt_mul_right (a := f64One)
  calc 10 * (M / (10 * f64One)) * f64One
      = M / (10 * f64One) * (10 * f64One) := by ring
    _ ≤ M := Nat.div_mul_le_self _ _
    _ < 2 ^ 53 * f64One := hlt

/-- Below `2^43` seconds every step of `v := int64(math.Trunc(ms/10) * 10)` is exact: the
bucket floor is ten times the integer quotient of the millisecond value by ten. -/
theorem bucketOf_of_le (lt : F64) (h : lt.units ≤ 2 ^ 43 * f64One) :
    ∃ M, toMs lt = some M ∧ M < 2 ^ 53 * f64One ∧
      bucketOf lt = 10 * ((M / (10 * f64One) : Nat) : Int) := by
  have hU := f64One_pos
  have hMle : f64RoundNat (lt.units * 1000) 1 ≤ (1000 * 2 ^ 43) * 2 ^ 1074 := by
    apply f64RoundNat_le _ _ _ (by decide) (grid_of_mul_pow _ _ (by norm_num))
    have : lt.units * 1000 ≤ 2 ^ 43 * f64One * 1000 := Nat.mul_le_mul_right _ h
    calc lt.units * 1000 ≤ 2 ^ 43 * f64One * 1000 := this
      _ = (1000 * 2 ^ 43) * 2 ^ 1074 * 1 := by unfold f64One; ring
  have hMlt : f64RoundNat (lt.units * 1000) 1 < 2 ^ 53 * f64One := by
    refine lt_of_le_of_lt hMle ?_
    show 1000 * 2 ^ 43 * f64One < 2 ^ 53 * f64One
    exact Nat.mul_lt_mul_of_pos_right (by norm_num) hU
  have hMgrid := f64RoundNat_grid (lt.units * 1000) 1
  have hdiv := f64RoundNat_div10 _ hMgrid hMlt
  obtain ⟨M, hMdef⟩ : ∃ M, M = f64RoundNat (lt.units * 1000) 1 := ⟨_, rfl⟩
  rw [← hMdef] at hMlt hMgrid hdiv
  have hov := lt_overflow M (le_of_lt hMlt)
  have htoMs : toMs lt = some M := by
    show f64Round (lt.units * 1000) 1 = some M
    unfold f64Round
    rw [← hMdef, if_pos hov]
  have ht := ten_mul_div_lt M hMlt
  have hDle : f64RoundNat M 10 ≤ 2 ^ 53 * 2 ^ 1074 := by
    apply f64RoundNat_le _ _ _ (by decide) (grid_of_mul_pow _ _ (le_refl _))
    have : M ≤ 2 ^ 53 * f64One := le_of_lt hMlt
    show M ≤ 2 ^ 53 * f64One * 10
    omega
  have hDov := lt_overflow _ hDle
  have hEgrid : 2 ^ f64Expo (M / (10 * f64One) * f64One * 10) ∣
      M / (10 * f64One) * f64One * 10 := by
    have e : M / (10 * f64One) * f64One * 10 = (10 * (M / (10 * f64One))) * 2 ^ 1074 := by
      unfold f64One; ring
    rw [e]
    exact grid_of_mul_pow _ _ (le_of_lt ht)
  have hEle : M / (10 * f64One) * f64One * 10 ≤ 2 ^ 53 * f64One := by
    calc M / (10 * f64One) * f64One * 10 = (10 * (M / (10 * f64One))) * f64One := by ring
      _ ≤ 2 ^ 53 * f64One := Nat.mul_le_mul_right _ (le_of_lt ht)
  have hEov := lt_overflow _ hEle
  have hEdiv : M / (10 * f64One) * f64One * 10 / f64One = 10 * (M / (10 * f64One)) := by
    have e : M / (10 * f64One) * f64One * 10 = (10 * (M / (10 * f64One))) * f64One := by ring
    rw [e, Nat.mul_div_cancel _ hU]
  refine ⟨M, htoMs, hMlt, ?_⟩
  unfold bucketOf
  rw [htoMs]
  show f64ToInt64 (f64MulNat (f64Trunc (f64Round M 10)) 10) = _
  unfold f64Round
  rw [if_pos hDov]
  show f64ToInt64 (f64Round (f64RoundNat M 10 / f64One * f64One * 10) 1) = _
  rw [hdiv]
  unfold f64Round
  rw [f64RoundNat_exact _ hEgrid, if_pos hEov]
  show (if M / (10 * f64One) * f64One * 10 / f64One < 2 ^ 63
    then ((M / (10 * f64One) * f64One * 10 / f64One : Nat) : Int) else minInt64) = _
  rw [hEdiv, if_pos (lt_trans ht (by norm_num))]
  push_cast
  rfl

/-- Every value of the input type `F64` is a non-negative finite binary64. -/
theorem F64.units_isF64 (x : F64) : isF64 x.units := by
  have h1 := grid_of_mul_pow x.mant x.expo (le_of_lt x.mant_lt)
  refine ⟨Nat.mod_eq_zero_of_dvd h1, ?_⟩
  have h2 : x.mant * 2 ^ x.expo < 2 ^ 53 * 2 ^ x.expo :=
    Nat.mul_lt_mul_of_pos_right x.mant_lt (Nat.pow_pos (by decide))
  have h3 : (2 : Nat) ^ 53 * 2 ^ x.expo ≤ 2 ^ 2098 := by
    rw [← pow_add]
    exact Nat.pow_le_pow_right (by decide) (by have := x.expo_le; omega)
  exact lt_of_lt_of_le h2 h3

/-! ### The two loops of `saveDataLatencyDistributionAll` -/

theorem wrap64_of_range (z : Int) (h1 : -(2 ^ 63) ≤ z) (h2 : z < 2 ^ 63) : wrap64 z = z := by
  unfold wrap64
  omega

theorem foldl_min_le_init (vs : List Int) : ∀ a, vs.foldl min a ≤ a := by
  induction vs with
  | nil => intro a; exact le_refl a
  | cons v vs ih => intro a; exact le_trans (ih _) (min_le_left a v)

theorem foldl_min_le_mem (vs : List Int) : ∀ a x, x ∈ vs → vs.foldl min a ≤ x := by
  induction vs with
  | nil => intro a x hx; cases hx
  | cons v vs ih =>
    intro a x hx
    rcases List.mem_cons.1 hx with h | h
    · subst h; exact le_trans (foldl_min_le_init vs _) (min_le_right a x)
    · exact ih _ x h

theorem foldl_min_mem (vs : List Int) : ∀ a, vs.foldl min a ∈ a :: vs := by
  induction vs with
  | nil => intro a; simp
  | cons v vs ih =>
    intro a
    have h := ih (min a v)
    rcases List.mem_cons.1 h with h1 | h1
    · rcases min_choice a v with h2 | h2
      · simp only [List.foldl_cons]; rw [h1, h2]; simp
      · simp only [List.foldl_cons]; rw [h1, h2]; simp
    · simp only [List.foldl_cons]
      exact List.mem_cons_of_mem _ (List.mem_cons_of_mem _ h1)

theorem le_foldl_max_init (vs : List Int) : ∀ a, a ≤ vs.foldl max a := by
  induction vs with
  | nil => intro a; exact le_refl a
  | cons v vs ih => intro a; exact le_trans (le_max_left a v) (ih _)

theorem le_foldl_max_mem (vs : List Int) : ∀ a x, x ∈ vs → x ≤ vs.foldl max a := by
  induction vs with
  | nil => intro a x hx; cases hx
  | cons v vs ih =>
    intro a x hx
    rcases List.mem_cons.1 hx with h | h
    · subst h; exact le_trans (le_max_right a x) (le_foldl_max_init vs _)
    · exact ih _ x h

theorem foldl_max_mem (vs : List Int) : ∀ a, vs.foldl max a ∈ a :: vs := by
  induction vs with
  | nil => intro a; simp
  | cons v vs ih =>
    intro a
    have h := ih (max a v)
    rcases List.mem_cons.1 h with h1 | h1
    · rcases max_choice a v with h2 | h2
      · simp only [List.foldl_cons]; rw [h1, h2]; simp
      · simp only [List.foldl_cons]; rw [h1, h2]; simp
    · simp only [List.foldl_cons]
      exact List.mem_cons_of_mem _ (List.mem_cons_of_mem _ h1)

theorem foldl_histStep_min (lats : List F64) : ∀ s : HistState,
    (lats.foldl histStep s).min = (floors lats).foldl min s.min := by
  induction lats with
  | nil => intro s; rfl
  | cons l ls ih =>
    intro s
    simp only [List.foldl_cons, floors, List.map_cons]
    rw [ih]
    congr 1
    simp only [histStep]
    rcases le_or_lt s.min (bucketOf l) with h | h
    · rw [if_neg (not_lt.2 h), min_eq_left h]
    · rw [if_pos h, min_eq_right (le_of_lt h)]

theorem foldl_histStep_max (lats : List F64) : ∀ s : HistState,
    (lats.foldl histStep s).max = (floors lats).foldl max s.max := by
  induction lats with
  | nil => intro s; rfl
  | cons l ls ih =>
    intro s
    simp only [List.foldl_cons, floors, List.map_cons]
    rw [ih]
    congr 1
    simp only [histStep]
    rcases lt_or_le s.max (bucketOf l) with h | h
    · rw [if_pos h, max_eq_right (le_of_lt h)]
    · rw [if_neg (not_lt.2 h), max_eq_left h]

theorem foldl_histStep_rm (lats : List F64) : ∀ (s : HistState) (k : Int),
    (lats.foldl histStep s).rm k = bump^[(floors lats).count k] (s.rm k) := by
  induction lats with
  | nil => intro s k; rfl
  | cons l ls ih =>
    intro s k
    simp only [List.foldl_cons, floors, List.map_cons]
    rw [ih, List.count_cons]
    by_cases h : k = bucketOf l
    · subst h
      simp [histStep, floors, Function.iterate_succ_apply]
    · have h' : ¬ bucketOf l = k := fun e => h e.symm
      simp [histStep, floors, h, h']

theorem iterate_bump_none (n : Nat) (h : n < 2 ^ 63) :
    bump^[n] none = if n = 0 then none else some (n : Int) := by
  induction n with
  | zero => rfl
  | succ n ih =>
    rw [Function.iterate_succ_apply', ih (by omega)]
    by_cases h0 : n = 0
    · subst h0; rfl
    · rw [if_neg h0, if_neg (Nat.succ_ne_zero n)]
      simp only [bump]
      rw [wrap64_of_range _ (by omega) (by push_cast; omega)]
      push_cast
      rfl

theorem countAt_histFold (lats : List F64) (hlen : lats.length < 2 ^ 63) (k : Int) :
    countAt (histFold lats).rm k = ((floors lats).count k : Int) := by
  have hc : (floors lats).count k < 2 ^ 63 := by
    have h1 := List.count_le_length k (floors lats)
    have h2 : (floors lats).length = lats.length := by simp [floors]
    omega
  unfold countAt histFold
  rw [foldl_histStep_rm]
  show (match bump^[(floors lats).count k] none with
    | some v => v
    | none => 0) = _
  rw [iterate_bump_none _ hc]
  by_cases h0 : (floors lats).count k = 0
  · rw [if_pos h0, h0]; rfl
  · rw [if_neg h0]

theorem emitLoop_ne_nil (rm : Int → Option Int) (max : Int) (fuel : Nat) (cur : Int) :
    emitLoop rm max fuel cur ≠ some [] := by
  cases fuel with
  | zero => simp [emitLoop]
  | succ fuel =>
    simp only [emitLoop]
    split_ifs
    · simp
    · cases emitLoop rm max fuel (wrap64 (cur + 10)) <;> simp

/-- The emission loop on an ascending grid: starting `n` steps of ten below `max`, it
leaves after `n + 1` rows. -/
theorem emitLoop_spec (rm : Int → Option Int) (max : Int) (hmax : max < 2 ^ 63 - 10) :
    ∀ (n : Nat) (cur : Int), -(2 ^ 63) ≤ cur → max = cur + 10 * (n : Int) →
      ∀ fuel, n + 1 ≤ fuel →
        emitLoop rm max fuel cur
          = some ((List.range (n + 1)).map
              (fun (i : Nat) => (cur + 10 * (i : Int), countAt rm (cur + 10 * (i : Int))))) := by
  intro n
  induction n with
  | zero =>
    intro cur hcur hm fuel hfuel
    obtain ⟨f, rfl⟩ : ∃ f, fuel = f + 1 := ⟨fuel - 1, by omega⟩
    simp only [emitLoop]
    have h1 : wrap64 (cur + 10) = cur + 10 :=
      wrap64_of_range _ (by omega) (by push_cast at hm; omega)
    have h2 : wrap64 (cur + 10 - 10) = cur :=
      by rw [wrap64_of_range _ (by omega) (by push_cast at hm; omega)]; omega
    rw [h1, h2, if_pos (by push_cast at hm; omega)]
    have hr : List.range (0 + 1) = [0] := rfl
    rw [hr]
    simp
  | succ n ih =>
    intro cur hcur hm fuel hfuel
    obtain ⟨f, rfl⟩ : ∃ f, fuel = f + 1 := ⟨fuel - 1, by omega⟩
    simp only [emitLoop]
    have h1 : wrap64 (cur + 10) = cur + 10 :=
      wrap64_of_range _ (by omega) (by push_cast at hm; omega)
    have h2 : wrap64 (cur + 10 - 10) = cur :=
      by rw [wrap64_of_range _ (by omega) (by push_cast at hm; omega)]; omega
    rw [h1, h2, if_neg (by push_cast at hm; omega)]
    rw [ih (cur + 10) (by omega) (by push_cast at hm ⊢; omega) f (by omega)]
    rw [List.range_succ_eq_map (n + 1)]
    simp only [Option.map_some', List.map_cons, List.map_map, Nat.cast_zero, mul_zero,
      add_zero, Option.some.injEq, List.cons.injEq, true_and]
    apply List.map_congr_left
    intro i _
    simp only [Function.comp, Nat.cast_succ]
    have e : cur + 10 + 10 * (i : Int) = cur + 10 * ((i : Int) + 1) := by ring
    rw [e]

theorem floors_props (lats : List F64) (hb : ∀ l ∈ lats, l.units ≤ 2 ^ 43 * f64One) :
    ∀ v ∈ floors lats, 0 ≤ v ∧ v < 2 ^ 53 ∧ v % 10 = 0 := by
  intro v hv
  obtain ⟨l, hl, rfl⟩ := List.mem_map.1 hv
  obtain ⟨M, _, hMlt, hv⟩ := bucketOf_of_le l (hb l hl)
  have ht := ten_mul_div_lt M hMlt
  rw [hv]
  refine ⟨by positivity, by exact_mod_cast ht, by omega⟩

theorem hist_min_max (lats : List F64) (hne : lats ≠ [])
    (hb : ∀ l ∈ lats, l.units ≤ 2 ^ 43 * f64One) :
    (histFold lats).min = minFloor lats ∧ (histFold lats).max = maxFloor lats ∧
      minFloor lats ∈ floors lats ∧ maxFloor lats ∈ floors lats ∧
      ∀ v ∈ floors lats, minFloor lats ≤ v ∧ v ≤ maxFloor lats := by
  cases lats with
  | nil => exact absurd rfl hne
  | cons l ls =>
    have hp := floors_props (l :: ls) hb
    have hfl : floors (l :: ls) = bucketOf l :: floors ls := rfl
    have h0 := hp (bucketOf l) (by rw [hfl]; exact List.mem_cons_self _ _)
    have hmn : minFloor (l :: ls) = (floors ls).foldl min (bucketOf l) := rfl
    have hmx : maxFloor (l :: ls) = (floors ls).foldl max (bucketOf l) := rfl
    refine ⟨?_, ?_, ?_, ?_, ?_⟩
    · unfold histFold
      rw [foldl_histStep_min, hfl, hmn, List.foldl_cons]
      congr 1
      apply min_eq_right
      show bucketOf l ≤ maxInt64
      unfold maxInt64
      omega
    · unfold histFold
      rw [foldl_histStep_max, hfl, hmx, List.foldl_cons]
      congr 1
      apply max_eq_right
      show (-100000 : Int) ≤ bucketOf l
      omega
    · rw [hmn, hfl]; exact foldl_min_mem _ _
    · rw [hmx, hfl]; exact foldl_max_mem _ _
    · intro v hv
      rw [hfl] at hv
      rw [hmn, hmx]
      rcases List.mem_cons.1 hv with h | h
      · subst h
        exact ⟨foldl_min_le_init _ _, le_foldl_max_init _ _⟩
      · exact ⟨foldl_min_le_mem _ _ _ h, le_foldl_max_mem _ _ _ h⟩

/-- For samples below `2^43` seconds the emission loop leaves after walking the grid from
the smallest to the largest bucket floor. -/
theorem save_rows (lats : List F64) (hne : lats ≠ [])
    (hb : ∀ l ∈ lats, l.units ≤ 2 ^ 43 * f64One) :
    (∀ fuel, ((maxFloor lats - minFloor lats) / 10).toNat + 1 ≤ fuel →
      saveDataLatencyDistributionAll fuel lats
        = some ((List.range (((maxFloor lats - minFloor lats) / 10).toNat + 1)).map
            (fun (i : Nat) => (minFloor lats + 10 * (i : Int),
              countAt (histFold lats).rm (minFloor lats + 10 * (i : Int)))))) ∧
    minFloor lats + 10 * ((((maxFloor lats - minFloor lats) / 10).toNat : Nat) : Int)
      = maxFloor lats ∧
    0 ≤ minFloor lats ∧ minFloor lats % 10 = 0 ∧
    ∀ v ∈ floors lats, ∃ i : Nat, i < ((maxFloor lats - minFloor lats) / 10).toNat + 1 ∧
      v = minFloor lats + 10 * (i : Int) := by
  obtain ⟨hmin, hmax, hmnmem, hmxmem, hall⟩ := hist_min_max lats hne hb
  have hp := floors_props lats hb
  obtain ⟨a1, a2, a3⟩ := hp _ hmnmem
  obtain ⟨b1, b2, b3⟩ := hp _ hmxmem
  have hle := (hall _ hmxmem).1
  have hn : minFloor lats + 10 * ((((maxFloor lats - minFloor lats) / 10).toNat : Nat) : Int)
      = maxFloor lats := by
    rw [Int.toNat_of_nonneg (by omega)]
    omega
  refine ⟨?_, hn, a1, a3, ?_⟩
  · intro fuel hfuel
    unfold saveDataLatencyDistributionAll
    simp only
    rw [hmin, hmax]
    exact emitLoop_spec _ _ (by omega) _ _ (by omega) hn.symm fuel hfuel
  · intro v hv
    obtain ⟨c1, c2, c3⟩ := hp v hv
    obtain ⟨d1, d2⟩ := hall v hv
    refine ⟨((v - minFloor lats) / 10).toNat, ?_, ?_⟩
    · have e1 : (v - minFloor lats) / 10 ≤ (maxFloor lats - minFloor lats) / 10 :=
        Int.ediv_le_ediv (by decide) (by omega)
      have e2 : 0 ≤ (v - minFloor lats) / 10 := by omega
      omega
    · rw [Int.toNat_of_nonneg (by omega)]
      omega

theorem inBucket_iff (l : F64) (hl : l.units ≤ 2 ^ 43 * f64One) (b : Int)
    (hb0 : 0 ≤ b) (hb10 : b % 10 = 0) : inBucket b l = true ↔ bucketOf l = b := by
  obtain ⟨M, hM, hMlt, hv⟩ := bucketOf_of_le l hl
  have hU := f64One_pos
  have h10U : 0 < 10 * f64One := by omega
  obtain ⟨j, rfl⟩ : ∃ j : Nat, b = 10 * (j : Int) :=
    ⟨(b / 10).toNat, by rw [Int.toNat_of_nonneg (by omega)]; omega⟩
  unfold inBucket
  rw [hM, hv]
  simp only [decide_eq_true_eq]
  have e1 : (10 * (j : Int) * (f64One : Int) ≤ (M : Int)) ↔ j * (10 * f64One) ≤ M := by
    rw [← Nat.cast_ofNat, ← Nat.cast_mul, ← Nat.cast_mul, Nat.cast_le]
    constructor <;> intro h <;> nlinarith
  have e2 : ((M : Int) < (10 * (j : Int) + 10) * (f64One : Int)) ↔
      M < (j + 1) * (10 * f64One) := by
    have : (10 * (j : Int) + 10) * (f64One : Int) = (((j + 1) * (10 * f64One) : Nat) : Int) := by
      push_cast; ring
    rw [this, Nat.cast_lt]
  rw [e1, e2, ← Nat.le_div_iff_mul_le h10U, ← Nat.div_lt_iff_lt_mul h10U]
  constructor
  · intro h; omega
  · intro h; omega

theorem count_eq_bucketCount (b : Int) (hb0 : 0 ≤ b) (hb10 : b % 10 = 0) (lats : List F64)
    (hb : ∀ l ∈ lats, l.units ≤ 2 ^ 43 * f64One) :
    ((floors lats).count b : Int) = bucketCount b lats := by
  unfold bucketCount
  congr 1
  induction lats with
  | nil => rfl
  | cons l ls ih =>
    have hl := hb l (List.mem_cons_self _ _)
    have ih' := ih (fun x hx => hb x (List.mem_cons_of_mem _ hx))
    have hiff := inBucket_iff l hl b hb0 hb10
    have hfl : floors (l :: ls) = bucketOf l :: floors ls := rfl
    rw [hfl, List.count_cons, ih']
    by_cases h : bucketOf l = b
    · rw [List.filter_cons_of_pos (hiff.2 h)]
      simp [h]
    · have hno : ¬ inBucket b l = true := fun e => h (hiff.1 e)
      rw [List.filter_cons_of_neg hno]
      simp [h]

theorem sum_indicator (ks : List Int) (hnd : ks.Nodup) (v : Int) (hv : v ∈ ks) :
    (ks.map (fun k => if v = k then (1 : Int) else 0)).sum = 1 := by
  induction ks with
  | nil => cases hv
  | cons k ks ih =>
    obtain ⟨hk, hnd'⟩ := List.nodup_cons.1 hnd
    rw [List.map_cons, List.sum_cons]
    by_cases h : v = k
    · subst h
      have hz : (ks.map (fun k => if v = k then (1 : Int) else 0)).sum = 0 := by
        apply List.sum_eq_zero
        intro x hx
        obtain ⟨y, hy, rfl⟩ := List.mem_map.1 hx
        have : v ≠ y := fun e => hk (e ▸ hy)
        simp [this]
      rw [hz]; simp
    · rcases List.mem_cons.1 hv with h1 | h1
      · exact absurd h1 h
      · rw [ih hnd' h1]; simp [h]

theorem sum_count (ks : List Int) (hnd : ks.Nodup) (vs : List Int) (hall : ∀ v ∈ vs, v ∈ ks) :
    (ks.map (fun k => (vs.count k : Int))).sum = (vs.length : Int) := by
  induction vs with
  | nil => simp
  | cons v vs ih =>
    have ih' := ih (fun x hx => hall x (List.mem_cons_of_mem _ hx))
    have hv := hall v (List.mem_cons_self _ _)
    have e : (fun k => (((v :: vs).count k : Nat) : Int))
        = fun k => (vs.count k : Int) + (if v = k then (1 : Int) else 0) := by
      funext k
      rw [List.count_cons]
      by_cases h : v = k <;> simp [h]
    rw [e, List.sum_map_add, ih', sum_indicator ks hnd v hv]
    simp

/-! ## Claims about `saveDataLatencyDistributionAll` -/

/-- C1 (amended): for every non-empty list of non-negative latencies of at most `2^43`
seconds the emission loop leaves, and the `LATENCY-MS` rows are the arithmetic progression
with step ten from the smallest to the largest truncated bucket floor: exactly
`(maxFloor - minFloor) / 10 + 1` rows, each row ten above the one before, the first
`minFloor`, the last `maxFloor`. -/
theorem latencyDistributionAll_contiguous (lats : List F64) (hne : lats ≠ [])
    (hb : ∀ l ∈ lats, l.units ≤ 2 ^ 43 * f64One) :
    ∃ rows : List (Int × Int),
      (∀ fuel, ((maxFloor lats - minFloor lats) / 10).toNat + 1 ≤ fuel →
        saveDataLatencyDistributionAll fuel lats = some rows) ∧
      rows.map Prod.fst
        = (List.range (((maxFloor lats - minFloor lats) / 10).toNat + 1)).map
            (fun (i : Nat) => minFloor lats + 10 * (i : Int)) ∧
      rows.length = ((maxFloor lats - minFloor lats) / 10).toNat + 1 ∧
      (∀ (i : Nat) (a b : Int), (rows.map Prod.fst).get? i = some a →
        (rows.map Prod.fst).get? (i + 1) = some b → b = a + 10) ∧
      (rows.map Prod.fst).head? = some (minFloor lats) ∧
      (rows.map Prod.fst).getLast? = some (maxFloor lats) := by
  obtain ⟨h1, h2, _, _, _⟩ := save_rows lats hne hb
  have hmap : ((List.range (((maxFloor lats - minFloor lats) / 10).toNat + 1)).map
      (fun (i : Nat) => (minFloor lats + 10 * (i : Int),
        countAt (histFold lats).rm (minFloor lats + 10 * (i : Int))))).map Prod.fst
      = (List.range (((maxFloor lats - minFloor lats) / 10).toNat + 1)).map
          (fun (i : Nat) => minFloor lats + 10 * (i : Int)) := by
    rw [List.map_map]
    rfl
  refine ⟨_, h1, hmap, by simp, ?_, ?_, ?_⟩
  · intro i a b ha hb'
    rw [hmap] at ha hb'
    simp only [List.get?_eq_getElem?, List.getElem?_map, List.getElem?_range,
      Option.map_eq_some'] at ha hb'
    obtain ⟨x, hx, rfl⟩ := ha
    obtain ⟨y, hy, rfl⟩ := hb'
    have hxi : x = i := by
      by_cases hi : i < ((maxFloor lats - minFloor lats) / 10).toNat + 1
      · simpa [List.getElem?_range hi] using hx.symm
      · rw [List.getElem?_eq_none (by simpa using hi)] at hx
        cases hx
    have hyi : y = i + 1 := by
      by_cases hi : i + 1 < ((maxFloor lats - minFloor lats) / 10).toNat + 1
      · simpa [List.getElem?_range hi] using hy.symm
      · rw [List.getElem?_eq_none (by simpa using hi)] at hy
        cases hy
    subst hxi hyi
    push_cast
    ring
  · rw [hmap, List.range_succ_eq_map]
    simp
  · rw [hmap, List.range_succ, List.map_append, List.map_singleton,
      List.getLast?_append_of_ne_nil _ (by simp), List.getLast?_singleton, h2]

/-- C1, witness: the theorem at the samples 5 ms, 12 ms, 22 ms. -/
theorem latencyDistributionAll_contiguous_witness :
    ∃ rows : List (Int × Int),
      (∀ fuel, ((maxFloor [lat5ms, lat12ms, lat22ms]
          - minFloor [lat5ms, lat12ms, lat22ms]) / 10).toNat + 1 ≤ fuel →
        saveDataLatencyDistributionAll fuel [lat5ms, lat12ms, lat22ms] = some rows) ∧
      rows.map Prod.fst
        = (List.range (((maxFloor [lat5ms, lat12ms, lat22ms]
            - minFloor [lat5ms, lat12ms, lat22ms]) / 10).toNat + 1)).map
            (fun (i : Nat) => minFloor [lat5ms, lat12ms, lat22ms] + 10 * (i : Int)) ∧
      rows.length = ((maxFloor [lat5ms, lat12ms, lat22ms]
          - minFloor [lat5ms, lat12ms, lat22ms]) / 10).toNat + 1 ∧
      (∀ (i : Nat) (a b : Int), (rows.map Prod.fst).get? i = some a →
        (rows.map Prod.fst).get? (i + 1) = some b → b = a + 10) ∧
      (rows.map Prod.fst).head? = some (minFloor [lat5ms, lat12ms, lat22ms]) ∧
      (rows.map Prod.fst).getLast? = some (maxFloor [lat5ms, lat12ms, lat22ms]) :=
  latencyDistributionAll_contiguous [lat5ms, lat12ms, lat22ms] (by simp) (by
    intro l hl
    simp only [List.mem_cons, List.mem_singleton, List.not_mem_nil, or_false] at hl
    rcases hl with rfl | rfl | rfl <;> decide)

/-- C1, counterexample: the two samples `2^46` s and the next `float64` above it,
`2^46 + 2^-6` s.  For the first, every step is exact: `ms = 70368744177664000` and
`v = 70368744177664000`.  For the second, `lt * 1000 = 70368744177664015.625` rounds to
`ms = 70368744177664016` (the grid step there is 8), `ms / 10 = 7036874417766401.6`
rounds to `7036874417766402`, and `7036874417766402 * 10 = 70368744177664020` is a tie
between 70368744177664016 and 70368744177664024 that goes to the even mantissa:
`v = 70368744177664016`.  The floors are sixteen apart, `cur` passes `max` without
meeting it, and no number of iterations makes the loop emit the two rows `minFloor`,
`minFloor + 10` that the claim promises. -/
theorem latencyDistributionAll_contiguous_fails :
    minFloor [lat2p46, lat2p46next] = 70368744177664000 ∧
    maxFloor [lat2p46, lat2p46next] = 70368744177664016 ∧
    ¬ ∃ (fuel : Nat) (rows : List (Int × Int)),
      saveDataLatencyDistributionAll fuel [lat2p46, lat2p46next] = some rows ∧
      rows.map Prod.fst
        = (List.range (((maxFloor [lat2p46, lat2p46next]
            - minFloor [lat2p46, lat2p46next]) / 10).toNat + 1)).map
            (fun (i : Nat) => minFloor [lat2p46, lat2p46next] + 10 * (i : Int)) := by
  have hmnf : minFloor [lat2p46, lat2p46next] = 70368744177664000 := by decide
  have hmxf : maxFloor [lat2p46, lat2p46next] = 70368744177664016 := by decide
  have hmin : (histFold [lat2p46, lat2p46next]).min = 70368744177664000 := by decide
  have hmax : (histFold [lat2p46, lat2p46next]).max = 70368744177664016 := by decide
  refine ⟨hmnf, hmxf, ?_⟩
  rintro ⟨fuel, rows, h1, h2⟩
  have hlen : rows.length = 2 := by
    have := congrArg List.length h2
    rw [hmnf, hmxf] at this
    simpa using this
  unfold saveDataLatencyDistributionAll at h1
  simp only at h1
  rw [hmin, hmax] at h1
  generalize (histFold [lat2p46, lat2p46next]).rm = rm at h1
  cases fuel with
  | zero => simp [emitLoop] at h1
  | succ fuel =>
    simp only [emitLoop] at h1
    rw [if_neg (by decide)] at h1
    cases fuel with
    | zero => simp [emitLoop] at h1
    | succ fuel =>
      simp only [emitLoop] at h1
      rw [if_neg (by decide)] at h1
      cases hrest : emitLoop rm 70368744177664016 fuel
          (wrap64 (wrap64 (70368744177664000 + 10) + 10)) with
      | none => rw [hrest] at h1; simp at h1
      | some rest =>
        rw [hrest] at h1
        simp only [Option.map_some', Option.some.injEq] at h1
        have hne := emitLoop_ne_nil rm 70368744177664016 fuel
          (wrap64 (wrap64 (70368744177664000 + 10) + 10))
        rw [hrest] at hne
        cases rest with
        | nil => exact hne rfl
        | cons r rs =>
          rw [← h1] at hlen
          simp at hlen

/-- C2 (amended): for every non-empty list of non-negative latencies of at most `2^43`
seconds (a Go slice, so fewer than `2^63` of them) the loop leaves, the `COUNT` of every emitted row is the number of samples
whose latency in milliseconds `m` satisfies `b ≤ m < b + 10` for the row's floor `b`, and
the counts sum to the number of samples; the samples 5 ms, 12 ms, 22 ms give the rows
`(0, 1)`, `(10, 1)`, `(20, 1)`. -/
theorem latencyDistributionAll_counts (lats : List F64) (hne : lats ≠ [])
    (hb : ∀ l ∈ lats, l.units ≤ 2 ^ 43 * f64One) (hlen : lats.length < 2 ^ 63) :
    (∃ rows : List (Int × Int),
      (∀ fuel, ((maxFloor lats - minFloor lats) / 10).toNat + 1 ≤ fuel →
        saveDataLatencyDistributionAll fuel lats = some rows) ∧
      (∀ row ∈ rows, row.2 = bucketCount row.1 lats) ∧
      (rows.map Prod.snd).sum = (lats.length : Int)) ∧
    saveDataLatencyDistributionAll 3 [lat5ms, lat12ms, lat22ms]
      = some [(0, 1), (10, 1), (20, 1)] := by
  refine ⟨?_, by decide⟩
  obtain ⟨h1, _, h3, h4, h5⟩ := save_rows lats hne hb
  refine ⟨_, h1, ?_, ?_⟩
  · intro row hrow
    obtain ⟨i, _, rfl⟩ := List.mem_map.1 hrow
    show countAt (histFold lats).rm (minFloor lats + 10 * (i : Int)) = _
    rw [countAt_histFold lats hlen]
    exact count_eq_bucketCount _ (by omega) (by omega) lats hb
  · have hnd : ((List.range (((maxFloor lats - minFloor lats) / 10).toNat + 1)).map
        (fun (i : Nat) => minFloor lats + 10 * (i : Int))).Nodup := by
      apply List.Nodup.map _ (List.nodup_range _)
      intro a b hab
      have : minFloor lats + 10 * (a : Int) = minFloor lats + 10 * (b : Int) := hab
      omega
    have hall : ∀ v ∈ floors lats,
        v ∈ (List.range (((maxFloor lats - minFloor lats) / 10).toNat + 1)).map
          (fun (i : Nat) => minFloor lats + 10 * (i : Int)) := by
      intro v hv
      obtain ⟨i, hi, rfl⟩ := h5 v hv
      exact List.mem_map.2 ⟨i, List.mem_range.2 hi, rfl⟩
    have hs := sum_count _ hnd (floors lats) hall
    have hfl : (floors lats).length = lats.length := by simp [floors]
    rw [hfl] at hs
    rw [← hs, List.map_map, List.map_map]
    congr 1
    apply List.map_congr_left
    intro i _
    show countAt (histFold lats).rm (minFloor lats + 10 * (i : Int)) = _
    rw [countAt_histFold lats hlen]
    rfl

/-- C2, witness: the theorem at the samples 5 ms, 12 ms, 22 ms. -/
theorem latencyDistributionAll_counts_witness :
    (∃ rows : List (Int × Int),
      (∀ fuel, ((maxFloor [lat5ms, lat12ms, lat22ms]
          - minFloor [lat5ms, lat12ms, lat22ms]) / 10).toNat + 1 ≤ fuel →
        saveDataLatencyDistributionAll fuel [lat5ms, lat12ms, lat22ms] = some rows) ∧
      (∀ row ∈ rows, row.2 = bucketCount row.1 [lat5ms, lat12ms, lat22ms]) ∧
      (rows.map Prod.snd).sum = (([lat5ms, lat12ms, lat22ms] : List F64).length : Int)) ∧
    saveDataLatencyDistributionAll 3 [lat5ms, lat12ms, lat22ms]
      = some [(0, 1), (10, 1), (20, 1)] :=
  latencyDistributionAll_counts [lat5ms, lat12ms, lat22ms] (by simp) (by
    intro l hl
    simp only [List.mem_cons, List.mem_singleton, List.not_mem_nil, or_false] at hl
    rcases hl with rfl | rfl | rfl <;> decide) (by decide)

/-- C2, counterexample: the single sample `0x1.000000000000ep+46 = 2^46 + 14 * 2^-6`
seconds.  `lt * 1000 = 70368744177664218.75` rounds to `ms = 70368744177664216` (grid
step 8), `ms / 10 = 7036874417766421.6` rounds to `7036874417766422`, and
`7036874417766422 * 10 = 70368744177664220` is a tie between 70368744177664216 and
70368744177664224 that goes to the even mantissa: `v = 70368744177664224`.  The one
emitted row is `(70368744177664224, 1)`: the bucket floor lies above the sample, so the
row counts a sample that does not satisfy `b ≤ m < b + 10`. -/
theorem latencyDistributionAll_counts_fails :
    toMs lat2p46plus14 = some (70368744177664216 * f64One) ∧
    saveDataLatencyDistributionAll 1 [lat2p46plus14] = some [(70368744177664224, 1)] ∧
    bucketCount 70368744177664224 [lat2p46plus14] = 0 := by
  refine ⟨by decide, by decide, by decide⟩

theorem emitLoop_odd (max : Int) (hmax : max % 2 = 0) (rm : Int → Option Int) :
    ∀ (fuel : Nat) (cur : Int), cur % 2 = 1 → emitLoop rm max fuel cur = none := by
  intro fuel
  induction fuel with
  | zero => intro cur _; rfl
  | succ fuel ih =>
    intro cur hcur
    simp only [emitLoop]
    have h1 : wrap64 (cur + 10) % 2 = 1 := by unfold wrap64; omega
    have h2 : wrap64 (wrap64 (cur + 10) - 10) % 2 = 1 := by
      generalize wrap64 (cur + 10) = c at h1
      unfold wrap64; omega
    rw [if_neg (by intro h; rw [h] at h2; omega), ih _ h1]
    rfl

/-- C3 (the code at the failing input): with no samples the emission loop starts at
`math.MaxInt64`, an odd number, and steps by ten towards `-100000`, an even one: it never
leaves, whatever number of iterations it is given. -/
theorem latencyDistributionAll_empty_never_leaves (fuel : Nat) :
    saveDataLatencyDistributionAll fuel [] = none := by
  unfold saveDataLatencyDistributionAll
  exact emitLoop_odd _ (by decide) _ fuel _ (by decide)

/-! ## The retry loop of `UploadToGoogle` -/

theorem retryFrom_spec {ε : Type} (outcome : Nat → Option ε) :
    ∀ (fuel k : Nat) (uerr : Option ε),
      k ≤ (retryFrom outcome fuel k uerr).1 ∧
      (retryFrom outcome fuel k uerr).1 ≤ k + fuel ∧
      (∀ j, k ≤ j → j + 1 < (retryFrom outcome fuel k uerr).1 → outcome j ≠ none) ∧
      ((retryFrom outcome fuel k uerr).1 = k → (retryFrom outcome fuel k uerr).2 = uerr) ∧
      (k < (retryFrom outcome fuel k uerr).1 →
        (retryFrom outcome fuel k uerr).2 = outcome ((retryFrom outcome fuel k uerr).1 - 1)) ∧
      ((retryFrom outcome fuel k uerr).1 < k + fuel →
        (retryFrom outcome fuel k uerr).2 = none) := by
  intro fuel
  induction fuel with
  | zero =>
    intro k uerr
    have hr : retryFrom outcome 0 k uerr = (k, uerr) := rfl
    rw [hr]
    refine ⟨le_refl k, by simp, fun j h1 h2 => ?_, fun _ => rfl, fun h => ?_, fun h => ?_⟩
    · simp only at h2; omega
    · simp only at h; omega
    · simp only at h; omega
  | succ fuel ih =>
    intro k uerr
    cases hk : outcome k with
    | none =>
      have hr : retryFrom outcome (fuel + 1) k uerr = (k + 1, none) := by
        simp only [retryFrom, hk]
      rw [hr]
      refine ⟨by simp, by simp, fun j h1 h2 => ?_, fun h => ?_, fun _ => ?_, fun _ => rfl⟩
      · simp only at h2; omega
      · simp only at h; omega
      · simp [hk]
    | some e =>
      have hr : retryFrom outcome (fuel + 1) k uerr
          = retryFrom outcome fuel (k + 1) (some e) := by
        simp only [retryFrom, hk]
      rw [hr]
      obtain ⟨h1, h2, h3, h4, h5, h6⟩ := ih (k + 1) (some e)
      refine ⟨by omega, by omega, ?_, fun h => by omega, ?_, fun h => h6 (by omega)⟩
      · intro j hj1 hj2
        rcases Nat.eq_or_lt_of_le hj1 with h | h
        · subst h; rw [hk]; simp
        · exact h3 j h hj2
      · intro _
        rcases Nat.eq_or_lt_of_le h1 with h | h
        · rw [h4 h.symm, ← h]; simp [hk]
        · exact h5 h

/-- C4: whatever the upload collaborator answers, the retry loop calls `UploadFile` at
least once and at most 30 times; every call before the last one failed, so no call
follows a success; the returned error is the answer of the last call; it is nil exactly
when one of the first 30 answers is nil, and when all 30 fail it is the answer of the
30th call; a collaborator that fails 29 times and then succeeds yields nil after 30
calls. -/
theorem uploadRetry_spec {ε : Type} (outcome : Nat → Option ε) :
    1 ≤ (uploadRetry outcome).1 ∧ (uploadRetry outcome).1 ≤ 30 ∧
    (∀ j, j + 1 < (uploadRetry outcome).1 → outcome j ≠ none) ∧
    (uploadRetry outcome).2 = outcome ((uploadRetry outcome).1 - 1) ∧
    ((uploadRetry outcome).2 = none ↔ ∃ j, j < 30 ∧ outcome j = none) ∧
    ((∀ j, j < 30 → outcome j ≠ none) →
      (uploadRetry outcome).1 = 30 ∧ (uploadRetry outcome).2 = outcome 29) ∧
    (∀ e : ε, uploadRetry (fun k => if k < 29 then some e else none) = (30, none)) := by
  obtain ⟨_, h2, h3, h4, h5, h6⟩ := retryFrom_spec outcome 30 0 none
  have hdef : retryFrom outcome 30 0 none = uploadRetry outcome := rfl
  rw [hdef] at h2 h3 h4 h5 h6
  have hpos : 0 < (uploadRetry outcome).1 := by
    rw [← hdef]
    cases h0 : outcome 0 with
    | none =>
      simp only [retryFrom, h0]
      exact Nat.one_pos
    | some e =>
      simp only [retryFrom, h0]
      exact lt_of_lt_of_le Nat.one_pos (retryFrom_spec outcome 29 1 (some e)).1
  have hlast : (uploadRetry outcome).2 = outcome ((uploadRetry outcome).1 - 1) := h5 hpos
  have hle : (uploadRetry outcome).1 ≤ 30 := by simpa using h2
  have hbefore : ∀ j, j + 1 < (uploadRetry outcome).1 → outcome j ≠ none :=
    fun j hj => h3 j (Nat.zero_le j) hj
  have hall : (∀ j, j < 30 → outcome j ≠ none) →
      (uploadRetry outcome).1 = 30 ∧ (uploadRetry outcome).2 = outcome 29 := by
    intro hfail
    have h30 : (uploadRetry outcome).1 = 30 := by
      by_contra hne
      have hlt : (uploadRetry outcome).1 < 0 + 30 := by omega
      have hnone := h6 hlt
      have : outcome ((uploadRetry outcome).1 - 1) = none := by
        rw [← hlast]; exact hnone
      exact hfail _ (by omega) this
    refine ⟨h30, ?_⟩
    rw [hlast, h30]
  refine ⟨hpos, hle, hbefore, hlast, ?_, hall, ?_⟩
  · constructor
    · intro h
      exact ⟨(uploadRetry outcome).1 - 1, by omega, by rw [← hlast]; exact h⟩
    · rintro ⟨j, hj, hnone⟩
      by_contra hne
      have h30 : (uploadRetry outcome).1 = 30 := by
        by_contra hne30
        exact hne (h6 (by omega))
      rcases Nat.lt_or_ge (j + 1) 30 with hlt | hge
      · exact hbefore j (by omega) hnone
      · have hj29 : j = 29 := by omega
        rw [hlast, h30] at hne
        rw [hj29] at hnone
        exact hne hnone
  · intro e
    simp [uploadRetry, retryFrom]

/-! ## `saveDataLatencyThroughputTimeseries` -/

theorem timeseries_frame {φ : Type} (gcfg : TestGroup) (timeSeries : List DataPoint)
    (tsToClientN : List (Int × Int)) :
    saveDataLatencyThroughputTimeseries (φ := φ) gcfg timeSeries tsToClientN
      = Except.ok
        [⟨"UNIX-SECOND", timeSeries.map (fun d => Cell.int d.Timestamp)⟩,
         ⟨"CONTROL-CLIENT-NUM",
            timeSeries.map (fun d => Cell.int (clientNumCell gcfg tsToClientN d))⟩,
         ⟨"MIN-LATENCY-MS", timeSeries.map (fun d => Cell.fMilli d.MinLatency)⟩,
         ⟨"AVG-LATENCY-MS", timeSeries.map (fun d => Cell.fMilli d.AvgLatency)⟩,
         ⟨"MAX-LATENCY-MS", timeSeries.map (fun d => Cell.fMilli d.MaxLatency)⟩,
         ⟨"AVG-THROUGHPUT", timeSeries.map (fun d => Cell.int d.ThroughPut)⟩] := by
  simp [saveDataLatencyThroughputTimeseries, addColumn]

/-- C9 (amended): the frame has one row per element of `st.TimeSeries`, in input order;
the `CONTROL-CLIENT-NUM` of every row is the configured `ClientNumber` when the supplied
mapping is empty; when the mapping is not empty it is the count the mapping holds for the
row's timestamp, and `0` for a timestamp the mapping does not hold. -/
theorem timeseries_rows {φ : Type} (gcfg : TestGroup) (timeSeries : List DataPoint)
    (tsToClientN : List (Int × Int)) :
    ∃ fr : List (Column φ),
      saveDataLatencyThroughputTimeseries gcfg timeSeries tsToClientN = Except.ok fr ∧
      fr.map (fun c => c.header) = ["UNIX-SECOND", "CONTROL-CLIENT-NUM", "MIN-LATENCY-MS",
        "AVG-LATENCY-MS", "MAX-LATENCY-MS", "AVG-THROUGHPUT"] ∧
      (∀ c ∈ fr, c.cells.length = timeSeries.length) ∧
      (∀ (i : Nat) (d : DataPoint), timeSeries.get? i = some d →
        frameRow fr i = [some (Cell.int d.Timestamp),
          some (Cell.int (clientNumCell gcfg tsToClientN d)),
          some (Cell.fMilli d.MinLatency), some (Cell.fMilli d.AvgLatency),
          some (Cell.fMilli d.MaxLatency), some (Cell.int d.ThroughPut)]) ∧
      (∀ d : DataPoint, tsToClientN = [] →
        clientNumCell gcfg tsToClientN d = gcfg.ClientNumber) ∧
      (∀ (d : DataPoint) (n : Int), tsToClientN ≠ [] →
        tsToClientN.lookup d.Timestamp = some n → clientNumCell gcfg tsToClientN d = n) ∧
      (∀ d : DataPoint, tsToClientN ≠ [] →
        tsToClientN.lookup d.Timestamp = none → clientNumCell gcfg tsToClientN d = 0) := by
  refine ⟨_, timeseries_frame gcfg timeSeries tsToClientN, by simp, ?_, ?_, ?_, ?_, ?_⟩
  · intro c hc
    simp only [List.mem_cons, List.mem_singleton, List.not_mem_nil, or_false] at hc
    rcases hc with rfl | rfl | rfl | rfl | rfl | rfl <;> simp
  · intro i d hd
    simp [frameRow, List.get?_eq_getElem?, List.getElem?_map] at hd ⊢
    simp [hd]
  · intro d h
    simp [clientNumCell, h]
  · intro d n h hlook
    have hlen : tsToClientN.length ≠ 0 := fun e => h (List.length_eq_zero.1 e)
    simp [clientNumCell, hlen, mapGet, hlook]
  · intro d h hlook
    have hlen : tsToClientN.length ≠ 0 := fun e => h (List.length_eq_zero.1 e)
    simp [clientNumCell, hlen, mapGet, hlook]

/-- C9, counterexample: with client counts supplied for second 1 only and a sample in
second 2, the row of second 2 gets `CONTROL-CLIENT-NUM` 0, not the configured
`ClientNumber` 7, although no count is supplied for its timestamp. -/
theorem timeseries_default_fails :
    ([(1, 5)] : List (Int × Int)).lookup 2 = none ∧
    saveDataLatencyThroughputTimeseries (φ := Unit) ⟨7, 0⟩ [⟨2, 0, 0, 0, 1⟩] [(1, 5)]
      = Except.ok
        [⟨"UNIX-SECOND", [Cell.int 2]⟩, ⟨"CONTROL-CLIENT-NUM", [Cell.int 0]⟩,
         ⟨"MIN-LATENCY-MS", [Cell.fMilli 0]⟩, ⟨"AVG-LATENCY-MS", [Cell.fMilli 0]⟩,
         ⟨"MAX-LATENCY-MS", [Cell.fMilli 0]⟩, ⟨"AVG-THROUGHPUT", [Cell.int 1]⟩] := by
  refine ⟨by decide, ?_⟩
  rw [timeseries_frame]
  rfl

/-! ## `saveDataLatencyDistributionSummary` -/

theorem error_header_ne (h x : String) (hh : h.data.head? ≠ some 'E') :
    h ≠ "ERROR: " ++ x := by
  intro e
  apply hh
  rw [e, String.data_append]
  rfl

theorem error_header_inj (quote : String → String) (hq : Function.Injective quote)
    (a b : String) (h : "ERROR: " ++ quote a = "ERROR: " ++ quote b) : a = b := by
  have h1 := congrArg String.data h
  rw [String.data_append, String.data_append] at h1
  exact hq (String.ext (List.append_cancel_left h1))

theorem quotePlain_injective : Function.Injective quotePlain := by
  intro a b h
  have h1 := congrArg String.data h
  simp only [quotePlain, String.data_append] at h1
  exact String.ext (List.append_cancel_left (List.append_cancel_right h1))

theorem addErrorColumns_ok {φ : Type} (quote : String → String)
    (hq : Function.Injective quote) :
    ∀ (entries : List (String × Int)) (fr : List (Column φ)),
      (entries.map Prod.fst).Nodup →
      (∀ e ∈ entries, ∀ c ∈ fr, c.header ≠ "ERROR: " ++ quote e.1) →
      addErrorColumns quote entries fr
        = Except.ok (fr ++ entries.map
            (fun e => (⟨"ERROR: " ++ quote e.1, [Cell.int e.2]⟩ : Column φ))) := by
  intro entries
  induction entries with
  | nil => intro fr _ _; simp [addErrorColumns]
  | cons e rest ih =>
    intro fr hnd hfr
    obtain ⟨name, n⟩ := e
    obtain ⟨hname, hnd'⟩ := List.nodup_cons.1 hnd
    have hany : fr.any (fun d => d.header == "ERROR: " ++ quote name) = false := by
      rw [List.any_eq_false]
      intro c hc
      have := hfr (name, n) (List.mem_cons_self _ _) c hc
      simpa using this
    have hadd : addColumn fr (⟨"ERROR: " ++ quote name, [Cell.int n]⟩ : Column φ)
        = Except.ok (fr ++ [⟨"ERROR: " ++ quote name, [Cell.int n]⟩]) := by
      simp only [addColumn, hany]
      rfl
    simp only [addErrorColumns, hadd]
    rw [ih _ hnd']
    · simp
    · intro e he c hc
      rcases List.mem_append.1 hc with h | h
      · exact hfr e (List.mem_cons_of_mem _ he) c h
      · have hc' : c = ⟨"ERROR: " ++ quote name, [Cell.int n]⟩ := by simpa using h
        rw [hc']
        intro heq
        have := error_header_inj quote hq _ _ heq
        apply hname
        rw [this]
        exact List.mem_map.2 ⟨e, he, rfl⟩

/-- C10: for every `Stats` value (the error-kind map given by its entries, keys distinct,
in whatever order `range` delivers them; `%q` one-to-one) the summary frame is built
without a fatal error and consists of the six columns `TOTAL-SECONDS`,
`REQUESTS-PER-SECOND`, `SLOWEST-LATENCY-MS`, `FASTEST-LATENCY-MS`, `AVERAGE-LATENCY-MS`,
`STDDEV-LATENCY-MS` in that order, followed by the error columns: the single column
`ERROR` with value `"0"` when the map is empty, otherwise one column per error kind
holding that kind's count; there is always at least one error column. -/
theorem summary_columns {φ : Type} (quote : String → String)
    (hq : Function.Injective quote) (st : Stats φ)
    (hnd : (st.ErrorDist.map Prod.fst).Nodup) :
    saveDataLatencyDistributionSummary quote st
      = Except.ok
        ([⟨"TOTAL-SECONDS", [Cell.f4 st.Total]⟩,
          ⟨"REQUESTS-PER-SECOND", [Cell.f4 st.RPS]⟩,
          ⟨"SLOWEST-LATENCY-MS", [Cell.f4Milli st.Slowest]⟩,
          ⟨"FASTEST-LATENCY-MS", [Cell.f4Milli st.Fastest]⟩,
          ⟨"AVERAGE-LATENCY-MS", [Cell.f4Milli st.Average]⟩,
          ⟨"STDDEV-LATENCY-MS", [Cell.f4Milli st.Stddev]⟩] ++
         (if st.ErrorDist = [] then [(⟨"ERROR", [Cell.text "0"]⟩ : Column φ)]
          else st.ErrorDist.map
            (fun e => (⟨"ERROR: " ++ quote e.1, [Cell.int e.2]⟩ : Column φ)))) ∧
    (if st.ErrorDist = [] then [(⟨"ERROR", [Cell.text "0"]⟩ : Column φ)]
      else st.ErrorDist.map
        (fun e => (⟨"ERROR: " ++ quote e.1, [Cell.int e.2]⟩ : Column φ))).length
      = max 1 st.ErrorDist.length := by
  constructor
  · by_cases hempty : st.ErrorDist = []
    · simp [saveDataLatencyDistributionSummary, addColumn, hempty]
    · have hlen : st.ErrorDist.length > 0 := List.length_pos.2 hempty
      simp only [saveDataLatencyDistributionSummary, addColumn, List.any_nil,
        List.any_cons, List.nil_append, List.cons_append, Bool.or_false, decide_False,
        Bool.false_eq_true, if_false, if_pos hlen, if_neg hempty, String.reduceBEq,
        Bool.or_self]
      rw [addErrorColumns_ok quote hq _ _ hnd]
      · rfl
      · intro e _ c hc
        simp only [List.mem_cons, List.mem_singleton, List.not_mem_nil, or_false] at hc
        rcases hc with rfl | rfl | rfl | rfl | rfl | rfl <;>
          exact error_header_ne _ _ (by simp only; decide)
  · by_cases hempty : st.ErrorDist = []
    · simp [hempty]
    · have hlen : 0 < st.ErrorDist.length := List.length_pos.2 hempty
      rw [if_neg hempty, List.length_map]
      omega

/-- C10, witness: the theorem at a `Stats` value with two error kinds. -/
theorem summary_columns_witness :
    saveDataLatencyDistributionSummary quotePlain statsTwoErrors
      = Except.ok
        ([⟨"TOTAL-SECONDS", [Cell.f4 statsTwoErrors.Total]⟩,
          ⟨"REQUESTS-PER-SECOND", [Cell.f4 statsTwoErrors.RPS]⟩,
          ⟨"SLOWEST-LATENCY-MS", [Cell.f4Milli statsTwoErrors.Slowest]⟩,
          ⟨"FASTEST-LATENCY-MS", [Cell.f4Milli statsTwoErrors.Fastest]⟩,
          ⟨"AVERAGE-LATENCY-MS", [Cell.f4Milli statsTwoErrors.Average]⟩,
          ⟨"STDDEV-LATENCY-MS", [Cell.f4Milli statsTwoErrors.Stddev]⟩] ++
         (if statsTwoErrors.ErrorDist = [] then [(⟨"ERROR", [Cell.text "0"]⟩ : Column Unit)]
          else statsTwoErrors.ErrorDist.map
            (fun e => (⟨"ERROR: " ++ quotePlain e.1, [Cell.int e.2]⟩ : Column Unit)))) ∧
    (if statsTwoErrors.ErrorDist = [] then [(⟨"ERROR", [Cell.text "0"]⟩ : Column Unit)]
      else statsTwoErrors.ErrorDist.map
        (fun e => (⟨"ERROR: " ++ quotePlain e.1, [Cell.int e.2]⟩ : Column Unit))).length
      = max 1 statsTwoErrors.ErrorDist.length :=
  summary_columns quotePlain quotePlain_injective statsTwoErrors (by decide)

/-! ## `startZookeeper` -/

theorem indexChars_cons (sep : List Char) (c : Char) (cs : List Char) :
    indexChars sep (c :: cs)
      = if sep.isPrefixOf (c :: cs) then some 0
        else (indexChars sep cs).map (fun m => m + 1) := rfl

theorem indexChars_sep_at (rest : List Char) : ∀ a : List Char,
    indexChars ['_', '_', '_'] a = none → a.getLast? ≠ some '_' →
    indexChars ['_', '_', '_'] (a ++ ['_', '_', '_'] ++ rest) = some a.length := by
  intro a
  induction a with
  | nil => intro _ _; simp [indexChars, List.isPrefixOf]
  | cons c a ih =>
    intro h1 h2
    have hnp : ¬ List.isPrefixOf ['_', '_', '_'] (c :: a) = true := by
      intro hp
      simp [indexChars, hp] at h1
    have hrec : indexChars ['_', '_', '_'] a = none := by
      simp only [indexChars, if_neg hnp, Option.map_eq_none'] at h1
      exact h1
    have hlast : a.getLast? ≠ some '_' := by
      cases a with
      | nil => simp
      | cons d a' => simpa [List.getLast?_cons_cons] using h2
    have hnp2 : ¬ List.isPrefixOf ['_', '_', '_'] (c :: (a ++ ['_', '_', '_'] ++ rest))
        = true := by
      cases a with
      | nil =>
        have hc : c ≠ '_' := by simpa using h2
        simp [List.isPrefixOf, Ne.symm hc]
      | cons d a' =>
        cases a' with
        | nil =>
          have hd : d ≠ '_' := by simpa [List.getLast?_cons_cons] using h2
          simp [List.isPrefixOf, Ne.symm hd]
        | cons e a'' =>
          simpa [List.isPrefixOf] using hnp
    have hih := ih hrec hlast
    show indexChars ['_', '_', '_'] (c :: (a ++ ['_', '_', '_'] ++ rest))
      = some (a.length + 1)
    rw [indexChars_cons, if_neg hnp2, hih]
    rfl

theorem joinChars_length (xs : List (List Char)) :
    xs.length ≤ (joinChars ['_', '_', '_'] xs).length + 1 := by
  induction xs with
  | nil => simp
  | cons a xs ih =>
    cases xs with
    | nil => simp [joinChars]
    | cons b rest =>
      simp only [joinChars, List.length_append, List.length_cons, List.length_nil] at ih ⊢
      omega

theorem splitAux_joinChars : ∀ (xs : List (List Char)), xs ≠ [] →
    (∀ a ∈ xs, indexChars ['_', '_', '_'] a = none ∧ a.getLast? ≠ some '_') →
    ∀ fuel, xs.length ≤ fuel + 1 →
      splitAux ['_', '_', '_'] fuel (joinChars ['_', '_', '_'] xs) = xs := by
  intro xs
  induction xs with
  | nil => intro h; exact absurd rfl h
  | cons a xs ih =>
    intro _ hgood fuel hfuel
    obtain ⟨ha1, ha2⟩ := hgood a (List.mem_cons_self _ _)
    cases xs with
    | nil =>
      cases fuel with
      | zero => rfl
      | succ f => simp [joinChars, splitAux, ha1]
    | cons b rest =>
      cases fuel with
      | zero => simp at hfuel
      | succ f =>
        have hidx := indexChars_sep_at (joinChars ['_', '_', '_'] (b :: rest)) a ha1 ha2
        have hrec := ih (by simp) (fun x hx => hgood x (List.mem_cons_of_mem _ hx)) f
          (by simp only [List.length_cons] at hfuel ⊢; omega)
        simp only [joinChars, splitAux, hidx]
        have htake : List.take a.length
            (a ++ ['_', '_', '_'] ++ joinChars ['_', '_', '_'] (b :: rest)) = a := by
          rw [List.append_assoc, List.take_left']
          rfl
        have hdrop : List.drop (a.length + ['_', '_', '_'].length)
            (a ++ ['_', '_', '_'] ++ joinChars ['_', '_', '_'] (b :: rest))
            = joinChars ['_', '_', '_'] (b :: rest) := by
          have : a.length + ['_', '_', '_'].length = (a ++ ['_', '_', '_']).length := by simp
          rw [this, List.drop_left']
          rfl
        rw [htake, hdrop, hrec]

theorem goSplit_goJoin (addrs : List String) (hne : addrs ≠ [])
    (hgood : ∀ a ∈ addrs,
      indexChars "___".data a.data = none ∧ a.data.getLast? ≠ some '_') :
    goSplit (goJoin addrs "___") "___" = addrs := by
  have hne' : addrs.map String.data ≠ [] := by
    intro h
    exact hne (List.map_eq_nil_iff.1 h)
  have hgood' : ∀ a ∈ addrs.map String.data,
      indexChars ['_', '_', '_'] a = none ∧ a.getLast? ≠ some '_' := by
    intro a ha
    obtain ⟨x, hx, rfl⟩ := List.mem_map.1 ha
    exact hgood x hx
  have h := splitAux_joinChars (addrs.map String.data) hne' hgood'
    (joinChars ['_', '_', '_'] (addrs.map String.data)).length
    (joinChars_length _)
  show (splitAux ['_', '_', '_'] (joinChars ['_', '_', '_'] (addrs.map String.data)).length
    (joinChars ['_', '_', '_'] (addrs.map String.data))).map String.mk = addrs
  rw [h, List.map_map]
  have : (String.mk ∘ String.data) = id := by
    funext x
    rfl
  rw [this, List.map_id]

theorem buildPeers_length : ∀ (xs : List String) (k : Nat),
    (buildPeers k xs).length = xs.length := by
  intro xs
  induction xs with
  | nil => intro k; rfl
  | cons x xs ih => intro k; simp [buildPeers, ih]

theorem buildPeers_get? : ∀ (xs : List String) (k i : Nat) (a : String),
    xs.get? i = some a →
    (buildPeers k xs).get? i = some ⟨((k + i : Nat) : Int) + 1, a⟩ := by
  intro xs
  induction xs with
  | nil => intro k i a h; simp at h
  | cons x xs ih =>
    intro k i a h
    cases i with
    | zero =>
      simp only [List.get?_cons_zero, Option.some.injEq] at h
      subst h
      simp [buildPeers]
    | succ i =>
      simp only [List.get?_cons_succ] at h
      simp only [buildPeers, List.get?_cons_succ]
      rw [ih (k + 1) i a h]
      have : k + 1 + i = k + (i + 1) := by omega
      rw [this]

/-- C5 (amended): for every ordered list of `n ≥ 1` peer addresses none of which contains
the separator `___` or ends with an underscore, joined by `___` into `PeerIPsString`,
`startZookeeper` builds exactly `n` peers, and the peer at 0-based position `i` has
`MyID = i + 1` and the `i`-th address as `IP`. -/
theorem zkPeers_of_goJoin (addrs : List String) (hne : addrs ≠ [])
    (hgood : ∀ a ∈ addrs,
      indexChars "___".data a.data = none ∧ a.data.getLast? ≠ some '_') :
    (zkPeers (goJoin addrs "___")).length = addrs.length ∧
    ∀ (i : Nat) (a : String), addrs.get? i = some a →
      (zkPeers (goJoin addrs "___")).get? i = some ⟨(i : Int) + 1, a⟩ := by
  unfold zkPeers
  rw [goSplit_goJoin addrs hne hgood]
  refine ⟨buildPeers_length _ _, ?_⟩
  intro i a h
  have := buildPeers_get? addrs 0 i a h
  simpa using this

/-- C5, witness: the theorem at three IPv4 addresses; the second one gets `MyID` 2. -/
theorem zkPeers_of_goJoin_witness :
    (zkPeers (goJoin ["10.0.0.1", "10.0.0.2", "10.0.0.3"] "___")).length
      = (["10.0.0.1", "10.0.0.2", "10.0.0.3"] : List String).length ∧
    ∀ (i : Nat) (a : String),
      (["10.0.0.1", "10.0.0.2", "10.0.0.3"] : List String).get? i = some a →
      (zkPeers (goJoin ["10.0.0.1", "10.0.0.2", "10.0.0.3"] "___")).get? i
        = some ⟨(i : Int) + 1, a⟩ :=
  zkPeers_of_goJoin ["10.0.0.1", "10.0.0.2", "10.0.0.3"] (by simp) (by decide)

/-- C5, counterexample: the addresses `a_` and `b` do not contain the separator, yet the
peers built from `a____b` carry the addresses `a` and `_b`. -/
theorem zkPeers_of_goJoin_fails :
    (∀ a ∈ (["a_", "b"] : List String), indexChars "___".data a.data = none) ∧
    goJoin ["a_", "b"] "___" = "a____b" ∧
    zkPeers (goJoin ["a_", "b"] "___") = [⟨1, "a"⟩, ⟨2, "_b"⟩] := by
  refine ⟨by decide, by decide, by decide⟩

/-- C6 (amended): `startZookeeper` has no template error to return.  With an empty
`PeerIPsString` it builds exactly one peer, with `MyID` 1 and an empty `IP`, whose line in
the config is `server.1=:2888:3888`; when the Java binary exists and the data directory,
the working directory and the `myid` file raise no error, it writes the rendered config
to `fs.zkConfig`, and the error it returns is that of this write or of the process
start. -/
theorem startZookeeper_empty_peers (os : OS) (quote : String → String)
    (shell globalJavaExec : String) (fs : Flags) (req : Request)
    (hjava : os.exist fs.javaExec = true)
    (h1 : os.removeAll fs.zkDataDir = none) (h2 : os.mkdirAll fs.zkDataDir = none)
    (h3 : os.chdir fs.zkWorkDir = none)
    (h4 : os.toFile (toString req.MyID)
      (String.mk (pathJoin [fs.zkDataDir.data, "myid".data])) = none)
    (hp : req.PeerIPsString = "") :
    (zkConfigOf fs req).Peers = [⟨1, ""⟩] ∧
    String.join ((zkConfigOf fs req).Peers.map renderPeer) = "server.1=:2888:3888\n" ∧
    Effect.toFile (renderZk (zkConfigOf fs req)) fs.zkConfig
      ∈ (startZookeeper os quote shell globalJavaExec fs req).1 ∧
    (startZookeeper os quote shell globalJavaExec fs req).2
      = (match os.toFile (renderZk (zkConfigOf fs req)) fs.zkConfig with
         | some e => some e
         | none =>
           match os.start [shell, "-c",
             fs.javaExec ++ " " ++ flagString ++ " " ++ fs.zkConfig] with
           | Except.error e => some e
           | Except.ok _ => none) := by
  have hpeers : (zkConfigOf fs req).Peers = [⟨1, ""⟩] := by
    show zkPeers req.PeerIPsString = _
    rw [hp]
    decide
  refine ⟨hpeers, ?_, ?_, ?_⟩
  · rw [hpeers]
    decide
  · simp only [startZookeeper, hjava, h1, h2, h3, h4]
    cases os.toFile (renderZk (zkConfigOf fs req)) fs.zkConfig with
    | some e => simp
    | none =>
      cases os.start [shell, "-c", fs.javaExec ++ " " ++ flagString ++ " " ++ fs.zkConfig]
        <;> simp
  · simp only [startZookeeper, hjava, h1, h2, h3, h4]
    cases os.toFile (renderZk (zkConfigOf fs req)) fs.zkConfig with
    | some e => simp
    | none =>
      cases os.start [shell, "-c", fs.javaExec ++ " " ++ flagString ++ " " ++ fs.zkConfig]
        <;> simp

/-- C6, witness: the theorem on a machine where every call succeeds. -/
theorem startZookeeper_empty_peers_witness :
    (zkConfigOf zkFlags zkRequestNoPeers).Peers = [⟨1, ""⟩] ∧
    String.join ((zkConfigOf zkFlags zkRequestNoPeers).Peers.map renderPeer)
      = "server.1=:2888:3888\n" ∧
    Effect.toFile (renderZk (zkConfigOf zkFlags zkRequestNoPeers)) zkFlags.zkConfig
      ∈ (startZookeeper osAllOk quotePlain "sh" "/opt/java" zkFlags zkRequestNoPeers).1 ∧
    (startZookeeper osAllOk quotePlain "sh" "/opt/java" zkFlags zkRequestNoPeers).2
      = (match osAllOk.toFile (renderZk (zkConfigOf zkFlags zkRequestNoPeers))
            zkFlags.zkConfig with
         | some e => some e
         | none =>
           match osAllOk.start ["sh", "-c",
             zkFlags.javaExec ++ " " ++ flagString ++ " " ++ zkFlags.zkConfig] with
           | Except.error e => some e
           | Except.ok _ => none) :=
  startZookeeper_empty_peers osAllOk quotePlain "sh" "/opt/java" zkFlags zkRequestNoPeers
    rfl rfl rfl rfl rfl rfl

/-- C6, counterexample: with an empty `PeerIPsString` on a machine where every call
succeeds, `startZookeeper` builds a peer entry, writes the config file with the line
`server.1=:2888:3888` to `zoo.cfg` and returns no error. -/
theorem startZookeeper_empty_peers_fails :
    zkPeers zkRequestNoPeers.PeerIPsString = [⟨1, ""⟩] ∧
    startZookeeper osAllOk quotePlain "sh" "/opt/java" zkFlags zkRequestNoPeers
      = ([Effect.removeAll "/data/zk", Effect.mkdirAll "/data/zk",
          Effect.chdir "/opt/zookeeper", Effect.toFile "1" "/data/zk/myid",
          Effect.toFile
            ("tickTime=2000\ndataDir=/data/zk\nclientPort=2181\ninitLimit=5\n" ++
             "syncLimit=5\nmaxClientCnxns=60\nsnapCount=100000\n" ++
             "server.1=:2888:3888\n\n") "zoo.cfg",
          Effect.start ["sh", "-c", "/opt/java " ++ flagString ++ " zoo.cfg"]],
         none) := by
  refine ⟨by decide, by decide⟩

/-- C7 (the code at the failing input): the binary checked is `fs.javaExec = /opt/java`,
which does not exist; the error message names `globalFlags.javaExec = /usr/bin/java` and
does not contain the path that was checked. -/
theorem startZookeeper_missing_java_message :
    osNoFile.exist zkFlags.javaExec = false ∧
    startZookeeper osNoFile quotePlain "sh" "/usr/bin/java" zkFlags zkRequestNoPeers
      = ([], some "Java binary \"/usr/bin/java\" does not exist") ∧
    indexChars zkFlags.javaExec.data
      "Java binary \"/usr/bin/java\" does not exist".data = none := by
  refine ⟨by decide, by decide, by decide⟩

/-- Whatever `PeerIPsString` holds, `startZookeeper` builds at least one peer, and the
peer at 0-based position `i` has `MyID = i + 1`. -/
theorem zkPeers_ids (peerIPsString : String) :
    zkPeers peerIPsString ≠ [] ∧
    ∀ (i : Nat) (p : ZookeeperPeer), (zkPeers peerIPsString).get? i = some p →
      p.MyID = (i : Int) + 1 := by
  have hsplit : goSplit peerIPsString "___" ≠ [] := by
    unfold goSplit
    intro h
    have h' := List.map_eq_nil_iff.1 h
    revert h'
    cases peerIPsString.data.length with
    | zero => simp [splitAux]
    | succ n =>
      simp only [splitAux]
      cases indexChars "___".data peerIPsString.data <;> simp
  constructor
  · intro h
    have hl := buildPeers_length (goSplit peerIPsString "___") 0
    unfold zkPeers at h
    rw [h] at hl
    exact hsplit (List.length_eq_zero.1 hl.symm)
  · intro i p hp
    unfold zkPeers at hp
    have hi : i < (goSplit peerIPsString "___").length := by
      have := List.get?_eq_some.1 hp
      obtain ⟨hlt, _⟩ := this
      rw [buildPeers_length] at hlt
      exact hlt
    have hget : (goSplit peerIPsString "___").get? i
        = some ((goSplit peerIPsString "___").get ⟨i, hi⟩) := List.get?_eq_get hi
    have := buildPeers_get? _ 0 i _ hget
    rw [this] at hp
    simp only [Option.some.injEq] at hp
    rw [← hp]
    simp

/-- When the Java binary at `fs.javaExec` does not exist, `startZookeeper` changes
nothing on the machine and returns the message built from `globalFlags.javaExec`. -/
theorem startZookeeper_missing_java (os : OS) (quote : String → String)
    (shell globalJavaExec : String) (fs : Flags) (req : Request)
    (h : os.exist fs.javaExec = false) :
    startZookeeper os quote shell globalJavaExec fs req
      = ([], some ("Java binary " ++ quote globalJavaExec ++ " does not exist")) := by
  simp [startZookeeper, h]

/-- The preceding theorem on a machine without any file. -/
theorem startZookeeper_missing_java_witness :
    startZookeeper osNoFile quotePlain "sh" "/usr/bin/java" zkFlags zkRequestNoPeers
      = ([], some ("Java binary " ++ quotePlain "/usr/bin/java" ++ " does not exist")) :=
  startZookeeper_missing_java osNoFile quotePlain "sh" "/usr/bin/java" zkFlags
    zkRequestNoPeers rfl

/-! ## `fileinspect` -/

/-- C8 (the code at the failing input): with working directory `/a`, the walk of `/a`
meets the two files `/a/a/x` (5 bytes) and `/a/x` (7 bytes); both get the key `/a/x`, so
`Walk` returns one entry and `Size` returns 7 instead of 12. -/
theorem walk_merges_files :
    (walkNode "/a".data treeTwoFiles).filter (fun e => !e.2.isDir)
      = [("/a/a/x".data, ⟨false, 5⟩), ("/a/x".data, ⟨false, 7⟩)] ∧
    fileSizes treeTwoFiles = [5, 7] ∧
    Walk "/a" "/a" treeTwoFiles = [("/a/x", ⟨false, 7⟩)] ∧
    Size "/a" "/a" treeTwoFiles = 7 := by
  refine ⟨by decide, by decide, by decide, by decide⟩

end Dbtester
